import Mathlib

/-!
Modular arithmetic engine of crypto3 (`boost/multiprecision/modular/modular_adaptor.hpp`).

A shallow embedding of the residue-class backend `modular_adaptor`, its ring
operations (`eval_add`, `eval_subtract`, `eval_multiply`, `eval_redc`), its
comparisons, its constructors and the windowed exponentiation routine
`find_modular_pow`, followed by theorems about them.

Big integers of the variable-width backend (`cpp_int`, signed, unbounded) are
`Int`; exponents, bit counts and table indices are `Nat`.  Operations that can
raise (`BOOST_ASSERT` on the moduli, `BOOST_THROW_EXCEPTION`) return `Except`.
-/

namespace Crypto3

/-! ## Errors -/

/-- Failures raised by the engine.  `mismatched_modulus` stands for both the
`BOOST_ASSERT(result.mod_data().get_mod() == o.mod_data().get_mod())` of the ring
operations and the `runtime_error("Could not compare modular number with different mod.")`
of `compare`; `modulus_too_small` for the
`runtime_error("Could not compare modular number with mod bigger than compared number.")`;
`out_of_range` for an index outside a `std::vector`; `division_by_zero` for the
big-integer collaborator's error on a zero divisor, which the engine propagates;
`no_bit_set` for the collaborator's `range_error("No bits were set in the operand.")`
on the most significant bit of zero, propagated likewise; `undefined_shift` for a shift
of a 32-bit `unsigned` by `32` or more, which has no defined result. -/
inductive Error where
  | mismatched_modulus
  | modulus_too_small
  | out_of_range
  | division_by_zero
  | no_bit_set
  | undefined_shift
  deriving DecidableEq

/-- Equality of outcomes is decidable, so that concrete runs can be evaluated. -/
instance instDecidableEqExcept {ε α : Type} [DecidableEq ε] [DecidableEq α] :
    DecidableEq (Except ε α)
  | .ok a, .ok b => if h : a = b then isTrue (by rw [h]) else isFalse (fun e => h (by cases e; rfl))
  | .error a, .error b =>
    if h : a = b then isTrue (by rw [h]) else isFalse (fun e => h (by cases e; rfl))
  | .ok _, .error _ => isFalse (fun e => by cases e)
  | .error _, .ok _ => isFalse (fun e => by cases e)

/-! ## Bit length -/

/-- Number of binary digits of `n`, by repeated halving; `fuel` bounds the number of
halvings. -/
def bit_length_aux : Nat → Nat → Nat
  | 0, _ => 0
  | fuel + 1, n => if n = 0 then 0 else bit_length_aux fuel (n / 2) + 1

/-- Number of binary digits of `n` (`0` for `n = 0`). -/
def bit_length (n : Nat) : Nat := bit_length_aux n n

/-! ## The reduction context `modular_params` (header not among the sources) -/

/-- Modelled from the spec: `modular_params<Backend>` (header `modular_params.hpp`),
the per-modulus reduction context.  It owns the modulus; its reduction constants are a
deterministic function of the modulus, so the modulus is the only datum and two
contexts are equal exactly when their moduli are. -/
structure modular_params where
  m_mod : Int
  deriving DecidableEq

/-- Modelled from the spec: `modular_params::get_mod`, the spec's `modulus()`. -/
def modular_params.get_mod (p : modular_params) : Int := p.m_mod

/-- Modelled from the spec: `modular_params::compare`, which orders two contexts by
their moduli alone; the result is `-1`, `0` or `1`. -/
def modular_params.compare (p o : modular_params) : Int :=
  if p.m_mod < o.m_mod then -1 else if p.m_mod = o.m_mod then 0 else 1

/-- Modelled from the spec: the bit length used to size the domain-transform factor of
`modular_params` (the number of binary digits of the modulus). -/
def modular_params.r_bits (p : modular_params) : Nat := bit_length p.m_mod.toNat

/-- Modelled from the spec: the "domain-transform factor" among the precomputed
constants of `modular_params`.  For an odd positive modulus it is the Montgomery radix
`2 ^ r_bits` reduced modulo the modulus; for every other modulus the transformed
representation is the canonical one and the factor is `1`. -/
def modular_params.r (p : modular_params) : Int :=
  if 0 < p.m_mod ∧ p.m_mod % 2 = 1 then (2 : Int) ^ p.r_bits % p.m_mod else 1

/-- Modelled from the spec: the inverse of the domain-transform factor among the
precomputed constants of `modular_params`.  For an odd positive modulus `M` the
inverse of `2` is `(M + 1) / 2`, so the inverse of `2 ^ r_bits` is its `r_bits`-th
power; otherwise it is `1`. -/
def modular_params.r_inv (p : modular_params) : Int :=
  if 0 < p.m_mod ∧ p.m_mod % 2 = 1 then ((p.m_mod + 1) / 2) ^ p.r_bits % p.m_mod else 1

/-- Modelled from the spec: `modular_params::adjust_modular`, the spec's `to_domain`:
maps a canonical value into the transformed representation. -/
def modular_params.adjust_modular (p : modular_params) (x : Int) : Int :=
  (x * p.r) % p.m_mod

/-- Modelled from the spec: `modular_params::adjust_regular`, the spec's `to_canonical`:
the inverse map, whose result lies in `[0, modulus)`. -/
def modular_params.adjust_regular (p : modular_params) (t : Int) : Int :=
  (t * p.r_inv) % p.m_mod

/-- Modelled from the spec: `modular_params::reduce`, the spec's `reduce_product`:
applied to the raw product of two transformed representations it yields the
transformed representation of the product. -/
def modular_params.reduce (p : modular_params) (wide : Int) : Int :=
  (wide * p.r_inv) % p.m_mod

/-! ## Big-integer collaborator operations used by the engine -/

/-- Modelled from the spec: `Backend::compare` of the big-integer collaborator, the
three-way comparison returning `-1`, `0` or `1`. -/
def backend_compare (x y : Int) : Int :=
  if x < y then -1 else if x = y then 0 else 1

/-- Modelled from the spec: `eval_modulus` of the big-integer collaborator, the
remainder of the division truncated toward zero. -/
def backend_eval_modulus (x m : Int) : Int := Int.tmod x m

/-- Modelled from the spec: `eval_divide` of the big-integer collaborator on a non-zero
divisor, the quotient truncated toward zero. -/
def backend_eval_divide (x y : Int) : Int := Int.tdiv x y

/-- Modelled from the spec: `eval_msb` of the big-integer collaborator, the index of the
most significant set bit (the bit length minus one).  The value `0` at the operand `0`
is the one the spec's edge case assumes; the library raises there instead, which
`eval_msb_checked` adds. -/
def eval_msb (e : Nat) : Nat := bit_length e - 1

/-! ## `modular_adaptor` -/

/-- The variable-width `modular_adaptor<Backend>`: `m_base` (transformed
representation) and `m_mod` (reduction context). -/
structure modular_adaptor where
  m_base : Int
  m_mod : modular_params
  deriving DecidableEq

/-- The constructor `modular_adaptor(const Backend& val, const Backend& mod)`
(lines 71-74): `m_base(val), m_mod(mod)`. -/
def modular_adaptor.ctor (val mod : Int) : modular_adaptor :=
  { m_base := val, m_mod := ⟨mod⟩ }

/-- The generic `assign_components(result, a, b)` (lines 498-505). -/
def assign_components (a b : Int) : modular_adaptor :=
  let m_mod : modular_params := ⟨b⟩
  { m_base := m_mod.adjust_modular a, m_mod := m_mod }

/-- The member `modular_adaptor::compare(const modular_adaptor& o)` (lines 147-158). -/
def modular_adaptor.compare (a o : modular_adaptor) : Except Error Int :=
  if a.m_mod.compare o.m_mod ≠ 0 then
    .error .mismatched_modulus
  else
    let tmp1 := a.m_mod.adjust_regular a.m_base
    let tmp2 := a.m_mod.adjust_regular o.m_base
    .ok (backend_compare tmp1 tmp2)

/-- The member template `modular_adaptor::compare(const T& val)` (lines 160-171):
`eval_lt(m_mod, val)` is `modulus < val`. -/
def modular_adaptor.compare_val (a : modular_adaptor) (val : Int) : Except Error Int :=
  if ¬ (a.m_mod.get_mod < val) then
    .error .modulus_too_small
  else
    let tmp := a.m_mod.adjust_regular a.m_base
    .ok (backend_compare tmp val)

/-- The function `eval_redc(result, mod)` (lines 404-409): `reduce`, then the
remainder modulo the modulus. -/
def eval_redc (result : Int) (mod : modular_params) : Int :=
  backend_eval_modulus (mod.reduce result) mod.get_mod

/-- The function `eval_add(result, o)` (lines 411-425); returns the new `result`. -/
def eval_add (result o : modular_adaptor) : Except Error modular_adaptor :=
  if result.m_mod.get_mod ≠ o.m_mod.get_mod then
    .error .mismatched_modulus
  else
    let s := result.m_base + o.m_base
    if s > result.m_mod.get_mod ∨ s = result.m_mod.get_mod then
      .ok { result with m_base := s - result.m_mod.get_mod }
    else
      .ok { result with m_base := s }

/-- The function `eval_subtract(result, o)` (lines 427-438); returns the new `result`. -/
def eval_subtract (result o : modular_adaptor) : Except Error modular_adaptor :=
  if result.m_mod.get_mod ≠ o.m_mod.get_mod then
    .error .mismatched_modulus
  else
    let d := result.m_base - o.m_base
    if d < 0 then
      .ok { result with m_base := d + result.m_mod.get_mod }
    else
      .ok { result with m_base := d }

/-- The function `eval_multiply(result, o)` (lines 440-446); returns the new `result`. -/
def eval_multiply (result o : modular_adaptor) : Except Error modular_adaptor :=
  if result.m_mod.get_mod ≠ o.m_mod.get_mod then
    .error .mismatched_modulus
  else
    .ok { result with m_base := eval_redc (result.m_base * o.m_base) result.m_mod }

/-! ## Windowed exponentiation -/

/-- The table `wsize` of `window_bits` (lines 533-539): rows `{threshold, increment}`. -/
def wsize : List (Nat × Nat) :=
  [(1434, 7), (539, 6), (197, 4), (70, 3), (17, 2), (0, 0)]

/-- The number of rows `wsize_count` (line 532). -/
def wsize_count : Nat := 6

/-- The loop `while (wsize[j][0] > exp_bits) --j;` of `window_bits` (lines 544-547),
started at row `j`; returns the row at which it stops.  The recursion ends at row `0`,
below which the source would index the table out of bounds; the scan starts at the
last row, whose threshold `0` is never greater than the unsigned `exp_bits`. -/
def window_bits_scan (exp_bits : Nat) : Nat → Nat
  | 0 => 0
  | j + 1 => if (wsize.getD (j + 1) (0, 0)).1 > exp_bits then window_bits_scan exp_bits j
             else j + 1

/-- The function `window_bits(exp_bits)` (lines 530-551). -/
def window_bits (exp_bits : Nat) : Nat :=
  let window_bits := 1
  let j := window_bits_scan exp_bits (wsize_count - 1)
  window_bits + (wsize.getD j (0, 0)).2

/-- The product `x * y` of two `number<modular_adaptor<Backend>>`: a copy of `x`
multiplied in place by `y` with `eval_multiply`. -/
def number_mul (x y : modular_adaptor) : Except Error modular_adaptor :=
  eval_multiply x y

/-- The table loop `for (i = 2; i < (1U << m_window_bits); i++)` of `find_modular_pow`
(lines 581-585): each further entry is the previous one multiplied by `b`; `count` is
the number of entries still to write and `prev` the entry written last. -/
def pow_table_chain (b prev : modular_adaptor) : Nat → Except Error (List modular_adaptor)
  | 0 => .ok []
  | count + 1 =>
    match eval_multiply prev b with
    | .error e => .error e
    | .ok g =>
      match pow_table_chain b g count with
      | .error e => .error e
      | .ok rest => .ok (g :: rest)

/-- The expression `1U << m_window_bits` (lines 570 and 581), a shift of a 32-bit
`unsigned`: `2 ^ m_window_bits` for a count below `32`; for a count of `32` or more the
shift has no defined result, which is rendered as the failure `undefined_shift`. -/
def unsigned_one_shift_left (m_window_bits : Nat) : Except Error Nat :=
  if m_window_bits < 32 then .ok ((1 <<< m_window_bits) % 2 ^ 32)
  else .error .undefined_shift

/-- The table `m_g` of `find_modular_pow` (lines 570-585), of `1U << m_window_bits`
entries: `m_g[0] = x`, `m_g[1] = b`, then `(1U << m_window_bits) - 2` entries of the
chain.  The width is at least `1` in every call (`window_bits` starts from `1`), so the
vector has room for both. -/
def pow_table (m_window_bits : Nat) (x b : modular_adaptor) :
    Except Error (List modular_adaptor) :=
  match unsigned_one_shift_left m_window_bits with
  | .error e => .error e
  | .ok size =>
    match pow_table_chain b b (size - 2) with
    | .error e => .error e
    | .ok rest => .ok (x :: b :: rest)

/-- The digit loop of `find_modular_pow` (lines 589-596): `count` times, push
`nibble & mask` and shift `nibble` right by `m_window_bits`. -/
def pow_exp_index (m_window_bits mask : Nat) : Nat → Nat → List Nat
  | 0, _ => []
  | count + 1, nibble =>
    (nibble &&& mask) :: pow_exp_index m_window_bits mask count (nibble >>> m_window_bits)

/-- The inner loop `for (j = 0; j != m_window_bits; ++j) x = x * x;` (lines 602-605). -/
def pow_square_loop : Nat → modular_adaptor → Except Error modular_adaptor
  | 0, x => .ok x
  | j + 1, x =>
    match number_mul x x with
    | .error e => .error e
    | .ok x1 => pow_square_loop j x1

/-- The element `m_g[exp_index[i]]`, an index outside either vector being an error. -/
def pow_lookup (m_g : List modular_adaptor) (exp_index : List Nat) (i : Nat) :
    Except Error modular_adaptor :=
  match exp_index.get? i with
  | none => .error .out_of_range
  | some d =>
    match m_g.get? d with
    | none => .error .out_of_range
    | some g => .ok g

/-- The outer loop `for (i = exp_nibbles - 1; i > 0; --i)` of `find_modular_pow`
(lines 599-608), entered with the loop variable equal to `i`. -/
def pow_main_loop (m_window_bits : Nat) (m_g : List modular_adaptor) (exp_index : List Nat) :
    Nat → modular_adaptor → Except Error modular_adaptor
  | 0, x => .ok x
  | i + 1, x =>
    match pow_square_loop m_window_bits x with
    | .error e => .error e
    | .ok x1 =>
      match pow_lookup m_g exp_index i with
      | .error e => .error e
      | .ok g =>
        match number_mul x1 g with
        | .error e => .error e
        | .ok x2 => pow_main_loop m_window_bits m_g exp_index i x2

/-- Lines 570-609 of `find_modular_pow`, for the window width `m_window_bits` and the
index `exp_bits` of the exponent's top bit: table, digits, and the main loop.  The
declaration `modular_type x(1, mod)` is the two-argument `number` constructor, which
hands its arguments to `assign_components`. -/
def find_modular_pow_window (m_window_bits exp_bits : Nat) (b : modular_adaptor) (exp : Nat) :
    Except Error modular_adaptor :=
  let mod := b.m_mod
  let x := assign_components 1 mod.get_mod
  let nibble := exp
  let mask := (1 <<< m_window_bits) - 1
  match pow_table m_window_bits x b with
  | .error e => .error e
  | .ok m_g =>
    let exp_nibbles := (exp_bits + 1 + m_window_bits - 1) / m_window_bits
    let exp_index := pow_exp_index m_window_bits mask exp_nibbles nibble
    match pow_lookup m_g exp_index (exp_nibbles - 1) with
    | .error e => .error e
    | .ok g =>
      match number_mul x g with
      | .error e => .error e
      | .ok x0 => pow_main_loop m_window_bits m_g exp_index (exp_nibbles - 1) x0

/-- The function `find_modular_pow(result, b, exp)` (lines 553-610); returns `result`. -/
def find_modular_pow (b : modular_adaptor) (exp : Nat) : Except Error modular_adaptor :=
  let exp_bits := eval_msb exp
  let m_window_bits := window_bits (exp_bits + 1)
  find_modular_pow_window m_window_bits exp_bits b exp

/-- Modelled from the spec: `eval_msb` of the big-integer collaborator together with its
failure on an operand without a set bit (the library raises
`range_error("No bits were set in the operand.")`, and the spec has big-integer errors
propagated unchanged); on every other operand the value is `eval_msb`. -/
def eval_msb_checked (e : Nat) : Except Error Nat :=
  if e = 0 then .error .no_bit_set else .ok (eval_msb e)

/-- The function `find_modular_pow(result, b, exp)` (lines 553-610) with the failure of
the unguarded call `eval_msb(exp)` at line 567 propagated; on a non-zero exponent it is
`find_modular_pow`. -/
def find_modular_pow_checked (b : modular_adaptor) (exp : Nat) :
    Except Error modular_adaptor :=
  match eval_msb_checked exp with
  | .error e => .error e
  | .ok exp_bits =>
    let m_window_bits := window_bits (exp_bits + 1)
    find_modular_pow_window m_window_bits exp_bits b exp

/-! ## Reference exponentiation -/

/-- Reference from the spec ("a naive square-and-multiply reference computed
independently"): the loop of right-to-left binary exponentiation modulo `M`; `fuel`
bounds the number of halvings of the exponent. -/
def naive_pow_mod_loop (M : Int) : Nat → Int → Int → Nat → Int
  | 0, result, _, _ => result
  | fuel + 1, result, base, e =>
    if e = 0 then result
    else
      naive_pow_mod_loop M fuel (if e % 2 = 1 then (result * base) % M else result)
        ((base * base) % M) (e / 2)

/-- Reference from the spec: naive square-and-multiply computation of `a ^ e mod M`. -/
def naive_pow_mod (M a : Int) (e : Nat) : Int :=
  naive_pow_mod_loop M e (1 % M) (a % M) e

/-! ## Conversion, zero test, negation, division -/

/-- The function `eval_convert_to(result, val)` (lines 386-391 and 490-496): the
collaborator's conversion applied to `val.base_data()`; returns the value converted. -/
def eval_convert_to (val : modular_adaptor) : Int := val.m_base

/-- The conversion `operator number<BackendT, ExpressionTemplates>()` (lines 192-196):
`return base_data();`. -/
def modular_adaptor.to_number (a : modular_adaptor) : Int := a.m_base

/-- The member `modular_adaptor::str` (lines 179-184) up to formatting: the number that
is handed to the collaborator's `str`. -/
def modular_adaptor.str_value (a : modular_adaptor) : Int :=
  a.m_mod.adjust_regular a.m_base

/-- The function `eval_is_zero(val)` (lines 474-481): the collaborator's zero test
applied to `val.base_data()`. -/
def eval_is_zero (val : modular_adaptor) : Bool := decide (val.m_base = 0)

/-- The member `modular_adaptor::negate` (lines 186-190): negate the base, then add the
modulus. -/
def modular_adaptor.negate (a : modular_adaptor) : modular_adaptor :=
  { a with m_base := -a.m_base + a.m_mod.get_mod }

/-- The function `eval_divide(result, o)` (lines 448-459); returns the new `result`.
The last statement of the source only writes the local `tmp2`. -/
def eval_divide (result o : modular_adaptor) : Except Error modular_adaptor :=
  if result.m_mod.get_mod ≠ o.m_mod.get_mod then
    .error .mismatched_modulus
  else
    let tmp1 := result.m_mod.adjust_regular result.m_base
    let tmp2 := result.m_mod.adjust_regular o.m_base
    if tmp2 = 0 then
      .error .division_by_zero
    else
      .ok { result with m_base := result.m_mod.adjust_modular (backend_eval_divide tmp1 tmp2) }

/-- The function `eval_modulus(result, o)` on two elements (lines 461-472); returns the
new `result`.  The last statement of the source only writes the local `tmp2`. -/
def eval_modulus (result o : modular_adaptor) : Except Error modular_adaptor :=
  if result.m_mod.get_mod ≠ o.m_mod.get_mod then
    .error .mismatched_modulus
  else
    let tmp1 := result.m_mod.adjust_regular result.m_base
    let tmp2 := result.m_mod.adjust_regular o.m_base
    if tmp2 = 0 then
      .error .division_by_zero
    else
      .ok { result with m_base := result.m_mod.adjust_modular (backend_eval_modulus tmp1 tmp2) }

/-! ## The `eval_pow` overloads of the variable-width backend -/

/-- The overload `eval_pow(result, b, const Backend2& e)` (lines 622-628). -/
def eval_pow_plain (b : modular_adaptor) (e : Nat) : Except Error modular_adaptor :=
  find_modular_pow b e

/-! ## The fixed-precision specialisation -/

/-- The specialisation `modular_adaptor<cpp_int_backend<MinBits, MinBits, SignType,
Checked, void>>` (lines 200-384): `m_base` has the type `Backend_doubled_limbs`, an
unsigned integer of `2 * MinBits` bits. -/
structure modular_adaptor_fixed (MinBits : Nat) where
  m_base : Nat
  m_mod : modular_params
  deriving DecidableEq

/-- The cast `static_cast<Backend_doubled_limbs>(x)`: the value modulo
`2 ^ (2 * MinBits)`. -/
def doubled_limbs (MinBits : Nat) (x : Int) : Nat :=
  (x % (2 : Int) ^ (2 * MinBits)).toNat

/-- The constructor `modular_adaptor(const BackendT& cb, const Backend& m)` of the
specialisation (lines 257-262): store the cast value and the modulus, then
`mod_data().adjust_modular(base_data())`. -/
def modular_adaptor_fixed.ctor (MinBits : Nat) (cb m : Int) : modular_adaptor_fixed MinBits :=
  let m_base := doubled_limbs MinBits cb
  let m_mod : modular_params := ⟨m⟩
  { m_base := doubled_limbs MinBits (m_mod.adjust_modular m_base), m_mod := m_mod }

/-- The conversion `operator number<BackendT, ExpressionTemplates>()` of the
specialisation (lines 379-383): `return static_cast<BackendT>(base_data());`, for a
target wide enough to hold the base. -/
def modular_adaptor_fixed.to_number {MinBits : Nat} (a : modular_adaptor_fixed MinBits) : Int :=
  a.m_base

/-- The two operands of a binary in-place operation: `result`, which the operation
overwrites, and `o`, which it reads. -/
structure CallState where
  result : modular_adaptor
  o : modular_adaptor
  deriving DecidableEq

/-- The function `eval_add(result, o)` (lines 411-425), statement by statement on the
operands: the error raised, if any, and the operands as they are when the call ends. -/
def eval_add_inplace (s : CallState) : Option Error × CallState :=
  if s.result.m_mod.get_mod ≠ s.o.m_mod.get_mod then
    (some .mismatched_modulus, s)
  else
    let s1 : CallState := { s with result := { s.result with m_base := s.result.m_base + s.o.m_base } }
    if s1.result.m_base > s1.result.m_mod.get_mod ∨ s1.result.m_base = s1.result.m_mod.get_mod then
      (none, { s1 with result :=
        { s1.result with m_base := s1.result.m_base - s1.result.m_mod.get_mod } })
    else
      (none, s1)

/-- The function `eval_subtract(result, o)` (lines 427-438), statement by statement on
the operands. -/
def eval_subtract_inplace (s : CallState) : Option Error × CallState :=
  if s.result.m_mod.get_mod ≠ s.o.m_mod.get_mod then
    (some .mismatched_modulus, s)
  else
    let s1 : CallState := { s with result := { s.result with m_base := s.result.m_base - s.o.m_base } }
    if s1.result.m_base < 0 then
      (none, { s1 with result :=
        { s1.result with m_base := s1.result.m_base + s1.result.m_mod.get_mod } })
    else
      (none, s1)

/-- The function `eval_multiply(result, o)` (lines 440-446), statement by statement on
the operands. -/
def eval_multiply_inplace (s : CallState) : Option Error × CallState :=
  if s.result.m_mod.get_mod ≠ s.o.m_mod.get_mod then
    (some .mismatched_modulus, s)
  else
    let s1 : CallState := { s with result := { s.result with m_base := s.result.m_base * s.o.m_base } }
    (none, { s1 with result :=
      { s1.result with m_base := eval_redc s1.result.m_base s1.result.m_mod } })

/-- The function `eval_divide(result, o)` (lines 448-459), statement by statement on the
operands; `tmp1` and `tmp2` are locals. -/
def eval_divide_inplace (s : CallState) : Option Error × CallState :=
  if s.result.m_mod.get_mod ≠ s.o.m_mod.get_mod then
    (some .mismatched_modulus, s)
  else
    let tmp1 := s.result.m_mod.adjust_regular s.result.m_base
    let tmp2 := s.result.m_mod.adjust_regular s.o.m_base
    if tmp2 = 0 then
      (some .division_by_zero, s)
    else
      let tmp1 := backend_eval_divide tmp1 tmp2
      let s1 : CallState := { s with result := { s.result with m_base := tmp1 } }
      (none, { s1 with result :=
        { s1.result with m_base := s1.result.m_mod.adjust_modular s1.result.m_base } })

/-- The function `eval_modulus(result, o)` (lines 461-472), statement by statement on
the operands; `tmp1` and `tmp2` are locals. -/
def eval_modulus_inplace (s : CallState) : Option Error × CallState :=
  if s.result.m_mod.get_mod ≠ s.o.m_mod.get_mod then
    (some .mismatched_modulus, s)
  else
    let tmp1 := s.result.m_mod.adjust_regular s.result.m_base
    let tmp2 := s.result.m_mod.adjust_regular s.o.m_base
    if tmp2 = 0 then
      (some .division_by_zero, s)
    else
      let tmp1 := backend_eval_modulus tmp1 tmp2
      let s1 : CallState := { s with result := { s.result with m_base := tmp1 } }
      (none, { s1 with result :=
        { s1.result with m_base := s1.result.m_mod.adjust_modular s1.result.m_base } })

/-- The member `compare(const modular_adaptor& o) const` (lines 147-158) on the
operands: a `const` member of `*this` taking `o` by `const` reference, it writes only
its locals `tmp1` and `tmp2`. -/
def compare_inplace (s : CallState) : Except Error Int × CallState :=
  (s.result.compare s.o, s)

/-! ## Bitwise and shift operations -/

/-- Modelled from the spec: `eval_bitwise_and` of the big-integer collaborator. -/
def backend_bitwise_and (x y : Int) : Int := Int.land x y

/-- Modelled from the spec: `eval_bitwise_or` of the big-integer collaborator. -/
def backend_bitwise_or (x y : Int) : Int := Int.lor x y

/-- Modelled from the spec: `eval_bitwise_xor` of the big-integer collaborator. -/
def backend_bitwise_xor (x y : Int) : Int := Int.xor x y

/-- Modelled from the spec: `eval_left_shift` of the big-integer collaborator by `i`
bits. -/
def backend_left_shift (x : Int) (i : Nat) : Int := x * 2 ^ i

/-- Modelled from the spec: `eval_right_shift` of the big-integer collaborator by `i`
bits. -/
def backend_right_shift (x : Int) (i : Nat) : Int := x / 2 ^ i

/-- The function `eval_bitwise_and(result, v)` (lines 698-708); returns the new
`result`.  Both operands are converted with `result.mod_data()`; the source has no
check of the moduli. -/
def eval_bitwise_and (result v : modular_adaptor) : modular_adaptor :=
  let tmp1 := result.m_mod.adjust_regular result.m_base
  let tmp2 := result.m_mod.adjust_regular v.m_base
  let tmp1 := backend_bitwise_and tmp1 tmp2
  { result with m_base := result.m_mod.adjust_modular tmp1 }

/-- The function `eval_bitwise_or(result, v)` (lines 710-720); returns the new
`result`. -/
def eval_bitwise_or (result v : modular_adaptor) : modular_adaptor :=
  let tmp1 := result.m_mod.adjust_regular result.m_base
  let tmp2 := result.m_mod.adjust_regular v.m_base
  let tmp1 := backend_bitwise_or tmp1 tmp2
  { result with m_base := result.m_mod.adjust_modular tmp1 }

/-- The function `eval_bitwise_xor(result, v)` (lines 722-732); returns the new
`result`. -/
def eval_bitwise_xor (result v : modular_adaptor) : modular_adaptor :=
  let tmp1 := result.m_mod.adjust_regular result.m_base
  let tmp2 := result.m_mod.adjust_regular v.m_base
  let tmp1 := backend_bitwise_xor tmp1 tmp2
  { result with m_base := result.m_mod.adjust_modular tmp1 }

/-- The local `tmp` of `eval_left_shift(t, i)` after the shift (lines 656-658): the
value assigned to `t.base_data()` and handed to `adjust_modular`. -/
def eval_left_shift_tmp (t : modular_adaptor) (i : Nat) : Int :=
  backend_left_shift (t.m_mod.adjust_regular t.m_base) i

/-- The function `eval_left_shift(t, i)` (lines 652-661); returns the new `t`. -/
def eval_left_shift (t : modular_adaptor) (i : Nat) : modular_adaptor :=
  { t with m_base := t.m_mod.adjust_modular (eval_left_shift_tmp t i) }

/-- The function `eval_right_shift(t, i)` (lines 663-672); returns the new `t`. -/
def eval_right_shift (t : modular_adaptor) (i : Nat) : modular_adaptor :=
  let tmp := t.m_mod.adjust_regular t.m_base
  let tmp := backend_right_shift tmp i
  { t with m_base := t.m_mod.adjust_modular tmp }

/-! ## Digits of the exponent -/

/-- The count `exp_nibbles` of `find_modular_pow` (line 586). -/
def pow_exp_nibbles (m_window_bits exp_bits : Nat) : Nat :=
  (exp_bits + 1 + m_window_bits - 1) / m_window_bits

/-- The vector `exp_index` that `find_modular_pow` builds for the exponent `exp`
(lines 567-596): the digits, least significant first. -/
def find_modular_pow_exp_index (exp : Nat) : List Nat :=
  let exp_bits := eval_msb exp
  let m_window_bits := window_bits (exp_bits + 1)
  let mask := (1 <<< m_window_bits) - 1
  pow_exp_index m_window_bits mask (pow_exp_nibbles m_window_bits exp_bits) exp

/-- Reference from the spec: `ceil(n / w)`, the least number of `w`-bit digits that
hold `n` bits. -/
def ceil_div (n w : Nat) : Nat := (n + w - 1) / w

/-! ## Subtraction in the fixed-precision specialisation -/

/-- The function `eval_subtract(result, o)` (lines 427-438) on the fixed-precision
specialisation with an unsigned unchecked backend: the difference of the
`Backend_doubled_limbs` bases wraps around modulo `2 ^ (2 * MinBits)`, and
`eval_lt(result.base_data(), ui_type(0u))` compares an unsigned value with zero. -/
def eval_subtract_fixed {MinBits : Nat} (result o : modular_adaptor_fixed MinBits) :
    Except Error (modular_adaptor_fixed MinBits) :=
  if result.m_mod.get_mod ≠ o.m_mod.get_mod then
    .error .mismatched_modulus
  else
    let d : Nat := doubled_limbs MinBits ((result.m_base : Int) - (o.m_base : Int))
    if d < 0 then
      .ok { result with m_base := doubled_limbs MinBits ((d : Int) + result.m_mod.get_mod) }
    else
      .ok { result with m_base := d }

/-! ## Field element `element_fp` (`algebra/fields/detail/element/fp.hpp`) -/

/-- The class `element_fp<FieldParams>` (lines 45-225): its one member `data`, of the
modular number type `number_type`, here `D`. -/
structure element_fp (D : Type) where
  data : D
  deriving DecidableEq

/-- The static member `element_fp::one()` (lines 76-78): the element built from `1`. -/
def element_fp.one {D : Type} [One D] : element_fp D := ⟨1⟩

/-- The member `element_fp::inversed()` (lines 195-197);
`inverse_extended_euclidean_algorithm` is the external extended-Euclidean routine. -/
def element_fp.inversed {D : Type} (inverse_extended_euclidean_algorithm : D → D)
    (a : element_fp D) : element_fp D :=
  ⟨inverse_extended_euclidean_algorithm a.data⟩

/-- The member `element_fp::operator*` (lines 139-141). -/
def element_fp.mul {D : Type} [Mul D] (a B : element_fp D) : element_fp D :=
  ⟨a.data * B.data⟩

/-- The member `element_fp::operator/` (lines 143-146):
`element_fp(data * B.inversed().data)`. -/
def element_fp.div {D : Type} [Mul D] (inverse_extended_euclidean_algorithm : D → D)
    (a B : element_fp D) : element_fp D :=
  ⟨a.data * (B.inversed inverse_extended_euclidean_algorithm).data⟩

/-- The member `element_fp::operator/=` (lines 129-133): `data *= B.inversed().data`;
returns the new `*this`. -/
def element_fp.div_assign {D : Type} [Mul D] (inverse_extended_euclidean_algorithm : D → D)
    (a B : element_fp D) : element_fp D :=
  { a with data := a.data * (B.inversed inverse_extended_euclidean_algorithm).data }

/-! ## Verifiers of the R1CS SE-ppzkSNARK (`r1cs_se_ppzksnark/verifier.hpp`) -/

/-- The proof of the scheme: the three group elements read by the verifier. -/
structure se_proof (G1 G2 : Type) where
  A : G1
  B : G2
  C : G1

/-- The processed verification key, with the members that
`r1cs_se_ppzksnark_verifier_process_vk::process` fills (lines 96-114). -/
structure se_processed_verification_key (G1 G2 G1_precomp G2_precomp Fqk : Type) where
  G_alpha : G1
  H_beta : G2
  G_alpha_H_beta_ml : Fqk
  G_gamma_pc : G1_precomp
  H_gamma_pc : G2_precomp
  H_pc : G2_precomp
  query : List G1

/-- The operations the verifier takes from its collaborators: group additions, the
pairing policy (`precompute_g1`, `precompute_g2`, `miller_loop`, `final_exponentiation`),
the arithmetic of the pairing's target, `multiexp`, and `proof.is_well_formed()`. -/
structure se_collaborators (G1 G2 G1_precomp G2_precomp Fqk GT Fr : Type) where
  g1_add : G1 → G1 → G1
  g2_add : G2 → G2 → G2
  precompute_g1 : G1 → G1_precomp
  precompute_g2 : G2 → G2_precomp
  miller_loop : G1_precomp → G2_precomp → Fqk
  final_exponentiation : Fqk → GT
  fqk_mul : Fqk → Fqk → Fqk
  unitary_inversed : Fqk → Fqk
  gt_one : GT
  gt_ne : GT → GT → Bool
  multiexp : List G1 → List Fr → G1
  is_well_formed : se_proof G1 G2 → Bool

/-- The function `r1cs_se_ppzksnark_online_verifier_weak_input_consistency::process`
(lines 153-212).  Reading `query[0]` of an empty `query` is an error. -/
def r1cs_se_ppzksnark_online_verifier_weak_input_consistency_process
    {G1 G2 G1_precomp G2_precomp Fqk GT Fr : Type}
    (c : se_collaborators G1 G2 G1_precomp G2_precomp Fqk GT Fr)
    (processed_verification_key : se_processed_verification_key G1 G2 G1_precomp G2_precomp Fqk)
    (primary_input : List Fr) (proof : se_proof G1 G2) : Except Error Bool :=
  let result := true
  let result := if ! c.is_well_formed proof then false else result
  match processed_verification_key.query with
  | [] => .error .out_of_range
  | query0 :: query_rest =>
    let G_psi := c.g1_add query0 (c.multiexp query_rest primary_input)
    let test1_l := c.miller_loop
      (c.precompute_g1 (c.g1_add proof.A processed_verification_key.G_alpha))
      (c.precompute_g2 (c.g2_add proof.B processed_verification_key.H_beta))
    let test1_r1 := processed_verification_key.G_alpha_H_beta_ml
    let test1_r2 := c.miller_loop (c.precompute_g1 G_psi) processed_verification_key.H_gamma_pc
    let test1_r3 := c.miller_loop (c.precompute_g1 proof.C) processed_verification_key.H_pc
    let test1 := c.final_exponentiation
      (c.fqk_mul (c.fqk_mul (c.fqk_mul (c.unitary_inversed test1_l) test1_r1) test1_r2) test1_r3)
    let result := if c.gt_ne test1 c.gt_one then false else result
    let test2_l := c.miller_loop (c.precompute_g1 proof.A) processed_verification_key.H_gamma_pc
    let test2_r := c.miller_loop processed_verification_key.G_gamma_pc (c.precompute_g2 proof.B)
    let test2 := c.final_exponentiation (c.fqk_mul test2_l (c.unitary_inversed test2_r))
    let result := if c.gt_ne test2 c.gt_one then false else result
    .ok result

/-- The function `r1cs_se_ppzksnark_online_verifier_strong_input_consistency::process`
(lines 274-288). -/
def r1cs_se_ppzksnark_online_verifier_strong_input_consistency_process
    {G1 G2 G1_precomp G2_precomp Fqk GT Fr : Type}
    (c : se_collaborators G1 G2 G1_precomp G2_precomp Fqk GT Fr)
    (pvk : se_processed_verification_key G1 G2 G1_precomp G2_precomp Fqk)
    (primary_input : List Fr) (proof : se_proof G1 G2) : Except Error Bool :=
  if pvk.query.length ≠ primary_input.length + 1 then
    .ok false
  else
    r1cs_se_ppzksnark_online_verifier_weak_input_consistency_process c pvk primary_input proof

/-! ## Marshalling of the placeholder proof (`marshalling/zk/types/placeholder/proof.hpp`) -/

/-- The member `evaluation_proof` of the placeholder proof, with the four members the
marshalling reads: `F` is the field value type, `R` and `Q` the proof types of the
runtime-size and of the quotient commitment scheme. -/
structure placeholder_evaluation_proof_value (F R Q : Type) where
  challenge : F
  lagrange_0 : F
  combined_value : R
  lookups : List Q

/-- The placeholder proof, with the members the marshalling reads: `CV`, `CP` and `CR`
are the commitment types of the variable-values, permutation and runtime-size
commitment schemes. -/
structure placeholder_proof_value (CV CP CR F R Q : Type) where
  variable_values_commitment : CV
  v_perm_commitment : CP
  input_perm_commitment : CP
  value_perm_commitment : CP
  v_l_perm_commitment : CP
  T_commitment : CR
  eval_proof : placeholder_evaluation_proof_value F R Q

/-- The bundle `placeholder_evaluation_proof` (lines 56-75): the tuple of the two
marshalled field elements, the marshalled LPC proof and the list of marshalled LPC
proofs.  The list that `fill_placeholder_evaluation_proof` declares has the
runtime-size scheme's marshalling type and receives the quotient scheme's, so both
have the one type `LM`. -/
structure placeholder_evaluation_proof_bundle (FM LM : Type) where
  get0 : FM
  get1 : FM
  get2 : LM
  get3 : List LM

/-- The bundle `placeholder_proof` (lines 145-180): six marshalled commitments and the
marshalled evaluation proof. -/
structure placeholder_proof_bundle (MV MP MR FM LM : Type) where
  get0 : MV
  get1 : MP
  get2 : MP
  get3 : MP
  get4 : MP
  get5 : MR
  get6 : placeholder_evaluation_proof_bundle FM LM

/-- The component marshallers the proof marshalling calls: `fill_merkle_node_value` and
`make_merkle_node_value` for the three commitment types, the constructor and `value()`
of `field_element`, and `fill_lpc_proof` and `make_lpc_proof` for the two schemes. -/
structure placeholder_marshallers (CV CP CR F R Q MV MP MR FM LM : Type) where
  fill_merkle_node_value_v : CV → MV
  make_merkle_node_value_v : MV → CV
  fill_merkle_node_value_p : CP → MP
  make_merkle_node_value_p : MP → CP
  fill_merkle_node_value_r : CR → MR
  make_merkle_node_value_r : MR → CR
  field_element : F → FM
  field_element_value : FM → F
  fill_lpc_proof_r : R → LM
  make_lpc_proof_r : LM → R
  fill_lpc_proof_q : Q → LM
  make_lpc_proof_q : LM → Q

/-- The loop `for (const auto &p : proof.lookups) filled_lookups.value().push_back(...)`
of `fill_placeholder_evaluation_proof` (lines 105-108), from the list filled so far. -/
def fill_lookups_loop {Q LM : Type} (fill_lpc_proof_q : Q → LM) :
    List Q → List LM → List LM
  | [], filled_lookups => filled_lookups
  | p :: rest, filled_lookups =>
    fill_lookups_loop fill_lpc_proof_q rest (filled_lookups ++ [fill_lpc_proof_q p])

/-- The function `fill_placeholder_evaluation_proof` (lines 78-114). -/
def fill_placeholder_evaluation_proof {CV CP CR F R Q MV MP MR FM LM : Type}
    (m : placeholder_marshallers CV CP CR F R Q MV MP MR FM LM)
    (proof : placeholder_evaluation_proof_value F R Q) :
    placeholder_evaluation_proof_bundle FM LM :=
  let filled_challenge := m.field_element proof.challenge
  let filled_lagrange_0 := m.field_element proof.lagrange_0
  let filled_combined_value := m.fill_lpc_proof_r proof.combined_value
  let filled_lookups := fill_lookups_loop m.fill_lpc_proof_q proof.lookups []
  ⟨filled_challenge, filled_lagrange_0, filled_combined_value, filled_lookups⟩

/-- The loop `for (i = 0; i < size; ++i) proof.lookups.emplace_back(make_lpc_proof(at(i)))`
of `make_placeholder_evaluation_proof` (lines 134-139): `count` iterations are left,
the next index is `i`; `at(i)` outside the list is an error. -/
def make_lookups_loop {Q LM : Type} (make_lpc_proof_q : LM → Q) (filled : List LM) :
    Nat → Nat → List Q → Except Error (List Q)
  | 0, _, lookups => .ok lookups
  | count + 1, i, lookups =>
    match filled.get? i with
    | none => .error .out_of_range
    | some f => make_lookups_loop make_lpc_proof_q filled count (i + 1)
        (lookups ++ [make_lpc_proof_q f])

/-- The function `make_placeholder_evaluation_proof` (lines 116-143). -/
def make_placeholder_evaluation_proof {CV CP CR F R Q MV MP MR FM LM : Type}
    (m : placeholder_marshallers CV CP CR F R Q MV MP MR FM LM)
    (filled_proof : placeholder_evaluation_proof_bundle FM LM) :
    Except Error (placeholder_evaluation_proof_value F R Q) :=
  let challenge := m.field_element_value filled_proof.get0
  let lagrange_0 := m.field_element_value filled_proof.get1
  let combined_value := m.make_lpc_proof_r filled_proof.get2
  match make_lookups_loop m.make_lpc_proof_q filled_proof.get3 filled_proof.get3.length 0 [] with
  | .error e => .error e
  | .ok lookups => .ok ⟨challenge, lagrange_0, combined_value, lookups⟩

/-- The function `fill_placeholder_proof` (lines 182-226). -/
def fill_placeholder_proof {CV CP CR F R Q MV MP MR FM LM : Type}
    (m : placeholder_marshallers CV CP CR F R Q MV MP MR FM LM)
    (proof : placeholder_proof_value CV CP CR F R Q) :
    placeholder_proof_bundle MV MP MR FM LM :=
  let filled_variable_values_commitment := m.fill_merkle_node_value_v proof.variable_values_commitment
  let filled_v_perm_commitment := m.fill_merkle_node_value_p proof.v_perm_commitment
  let filled_input_perm_commitment := m.fill_merkle_node_value_p proof.input_perm_commitment
  let filled_value_perm_commitment := m.fill_merkle_node_value_p proof.value_perm_commitment
  let filled_v_l_perm_commitment := m.fill_merkle_node_value_p proof.v_l_perm_commitment
  let filled_T_commitment := m.fill_merkle_node_value_r proof.T_commitment
  ⟨filled_variable_values_commitment, filled_v_perm_commitment, filled_input_perm_commitment,
    filled_value_perm_commitment, filled_v_l_perm_commitment, filled_T_commitment,
    fill_placeholder_evaluation_proof m proof.eval_proof⟩

/-- The function `make_placeholder_proof` (lines 228-270). -/
def make_placeholder_proof {CV CP CR F R Q MV MP MR FM LM : Type}
    (m : placeholder_marshallers CV CP CR F R Q MV MP MR FM LM)
    (filled_proof : placeholder_proof_bundle MV MP MR FM LM) :
    Except Error (placeholder_proof_value CV CP CR F R Q) :=
  match make_placeholder_evaluation_proof m filled_proof.get6 with
  | .error e => .error e
  | .ok eval_proof =>
    .ok { variable_values_commitment := m.make_merkle_node_value_v filled_proof.get0,
          v_perm_commitment := m.make_merkle_node_value_p filled_proof.get1,
          input_perm_commitment := m.make_merkle_node_value_p filled_proof.get2,
          value_perm_commitment := m.make_merkle_node_value_p filled_proof.get3,
          v_l_perm_commitment := m.make_merkle_node_value_p filled_proof.get4,
          T_commitment := m.make_merkle_node_value_r filled_proof.get5,
          eval_proof := eval_proof }

/-- A concrete family of component marshallers over the natural numbers: every `fill`
adds one and every `make` subtracts one. -/
def shift_marshallers : placeholder_marshallers Nat Nat Nat Nat Nat Nat Nat Nat Nat Nat Nat where
  fill_merkle_node_value_v := fun x => x + 1
  make_merkle_node_value_v := fun x => x - 1
  fill_merkle_node_value_p := fun x => x + 1
  make_merkle_node_value_p := fun x => x - 1
  fill_merkle_node_value_r := fun x => x + 1
  make_merkle_node_value_r := fun x => x - 1
  field_element := fun x => x + 1
  field_element_value := fun x => x - 1
  fill_lpc_proof_r := fun x => x + 1
  make_lpc_proof_r := fun x => x - 1
  fill_lpc_proof_q := fun x => x + 1
  make_lpc_proof_q := fun x => x - 1

/-- A concrete placeholder proof over the natural numbers, with three lookups. -/
def sample_placeholder_proof : placeholder_proof_value Nat Nat Nat Nat Nat Nat :=
  { variable_values_commitment := 1, v_perm_commitment := 2, input_perm_commitment := 3,
    value_perm_commitment := 4, v_l_perm_commitment := 5, T_commitment := 6,
    eval_proof := { challenge := 7, lagrange_0 := 8, combined_value := 9,
                    lookups := [10, 11, 12] } }

/-! ## Square root, and equality with a plain value -/

/-- Greatest `r` below or at the start value with `r * r <= n`, by counting down. -/
def isqrt_loop (n : Nat) : Nat → Nat
  | 0 => 0
  | r + 1 => if (r + 1) * (r + 1) ≤ n then r + 1 else isqrt_loop n r

/-- Modelled from the spec: the integer square root of the big-integer collaborator,
the greatest `r` with `r * r <= n`. -/
def isqrt (n : Nat) : Nat := isqrt_loop n n

/-- Modelled from the spec: `eval_sqrt` of the big-integer collaborator, on a
non-negative operand (a negative one is read as zero). -/
def backend_eval_sqrt (x : Int) : Int := (isqrt x.toNat : Nat)

/-- The function `eval_sqrt(result, val)` (lines 517-522):
`eval_sqrt(result.base_data(), val.base_data())`; returns the new `result`. -/
def eval_sqrt (result val : modular_adaptor) : modular_adaptor :=
  { result with m_base := backend_eval_sqrt val.m_base }

/-- The function `eval_eq(a, b)` for an arithmetic `b` (lines 393-402):
`a.compare(b) == 0`. -/
def eval_eq (a : modular_adaptor) (b : Int) : Except Error Bool :=
  match a.compare_val b with
  | .error e => .error e
  | .ok c => .ok (decide (c = 0))

/-! ## Last chunk of the final exponentiation (`pairing/bls12/381/final_exponentiation.hpp`) -/

/-- The operations of the target-group element that the final exponentiation calls, and
the two parameters `final_exponent_z`, `final_exponent_is_z_neg` of `params_type`. -/
structure final_exponentiation_collaborators (G : Type) where
  cyclotomic_squared : G → G
  unitary_inversed : G → G
  cyclotomic_exp : G → Nat → G
  Frobenius_map : G → Nat → G
  final_exponent_z : Nat
  final_exponent_is_z_neg : Bool

/-- The function `exp_by_z` (lines 78-88). -/
def exp_by_z {G : Type} (c : final_exponentiation_collaborators G) (elt : G) : G :=
  let result := c.cyclotomic_exp elt c.final_exponent_z
  if c.final_exponent_is_z_neg then c.unitary_inversed result else result

/-- The function `final_exponentiation_last_chunk` (lines 90-121). -/
def final_exponentiation_last_chunk {G : Type} [Mul G]
    (c : final_exponentiation_collaborators G) (elt : G) : G :=
  let A := c.cyclotomic_squared elt
  let B := c.unitary_inversed A
  let C := exp_by_z c elt
  let D := c.cyclotomic_squared C
  let E := B * C
  let F := exp_by_z c E
  let G1 := exp_by_z c F
  let H := exp_by_z c G1
  let I := H * D
  let J := exp_by_z c I
  let K := c.unitary_inversed E
  let L := K * J
  let M := elt * L
  let N := c.unitary_inversed elt
  let O := F * elt
  let P := c.Frobenius_map O 3
  let Q := I * N
  let R := c.Frobenius_map Q 1
  let S := C * G1
  let T := c.Frobenius_map S 2
  let U := T * P
  let V := U * R
  let W := V * M
  W

/-- The signed exponent `z` that `exp_by_z` raises to. -/
def final_exponent_z_signed {G : Type} (c : final_exponentiation_collaborators G) : Int :=
  if c.final_exponent_is_z_neg then - (c.final_exponent_z : Int) else (c.final_exponent_z : Int)

/-! ## Twisted Edwards points (`curves/detail/forms/twisted_edwards/element_g1.hpp`) -/

/-- The struct `element_g1` of the twisted Edwards form (lines 55-72): the three field
values `X`, `Y`, `Z`. -/
structure element_g1 (F : Type) where
  X : F
  Y : F
  Z : F
  deriving DecidableEq

/-- The constructor `element_g1(in_X, in_Y, in_Z = field_value_type::one())` with two
arguments (lines 85-90). -/
def element_g1.ctor2 {F : Type} [One F] (in_X in_Y : F) : element_g1 F :=
  { X := in_X, Y := in_Y, Z := 1 }

/-- The member `element_g1::is_zero` (lines 139-141). -/
def element_g1.is_zero {F : Type} [Zero F] [One F] [DecidableEq F] (p : element_g1 F) : Bool :=
  decide (p.X = 0) && decide (p.Y = 1) && decide (p.Z = 0)

/-- The member `element_g1::operator==` (lines 107-129). -/
def element_g1.eq {F : Type} [Zero F] [One F] [Mul F] [DecidableEq F]
    (p other : element_g1 F) : Bool :=
  if p.is_zero then other.is_zero
  else if other.is_zero then false
  else if p.X * other.Z ≠ other.X * p.Z then false
  else if p.Y * other.Z ≠ other.Y * p.Z then false
  else true

/-- The member `element_g1::is_well_formed` (lines 156-168), for the curve constants
`a` and `d` of the policy; the field value's `squared()` is the product with itself. -/
def element_g1.is_well_formed {F : Type} [CommRing F] [DecidableEq F] (a d : F)
    (p : element_g1 F) : Bool :=
  if p.is_zero then true
  else
    let XX := p.X * p.X
    let YY := p.Y * p.Y
    decide (a * XX + YY = 1 + d * XX * YY)

/-- The private member `element_g1::add` (lines 221-234); `inversed` is the field
value's `inversed()`. -/
def element_g1.add {F : Type} [CommRing F] (a d : F) (inversed : F → F)
    (p other : element_g1 F) : element_g1 F :=
  let XX := p.X * other.X
  let YY := p.Y * other.Y
  let XY := p.X * other.Y
  let YX := p.Y * other.X
  let lambda := d * XX * YY
  let X3 := (XY + YX) * inversed (1 + lambda)
  let Y3 := (YY - a * XX) * inversed (1 - lambda)
  element_g1.ctor2 X3 Y3

/-- The member `element_g1::doubled` (lines 209-217). -/
def element_g1.doubled {F : Type} [CommRing F] [DecidableEq F] (a d : F) (inversed : F → F)
    (p : element_g1 F) : element_g1 F :=
  if p.is_zero then p else p.add a d inversed p

/-- The member `element_g1::operator+` (lines 181-196). -/
def element_g1.plus {F : Type} [CommRing F] [DecidableEq F] (a d : F) (inversed : F → F)
    (p other : element_g1 F) : element_g1 F :=
  if p.is_zero then other
  else if other.is_zero then p
  else if p.eq other then p.doubled a d inversed
  else p.add a d inversed other

/-- The unary member `element_g1::operator-` (lines 198-200). -/
def element_g1.neg {F : Type} [CommRing F] (p : element_g1 F) : element_g1 F :=
  { X := - p.X, Y := p.Y, Z := p.Z }

/-- The binary member `element_g1::operator-` (lines 202-204): `(*this) + (-B)`. -/
def element_g1.minus {F : Type} [CommRing F] [DecidableEq F] (a d : F) (inversed : F → F)
    (p B : element_g1 F) : element_g1 F :=
  p.plus a d inversed B.neg

/-! ## List polynomial commitment (`zk/snark/commitments/list_polynomial_commitment.hpp`) -/

/-- The function `list_polynomial_commitment_scheme::verify_eval` (lines 167-172):
`return true;`. -/
def verify_eval {Points Commitment Proof Domain : Type} (_evaluation_points : Points)
    (_root : Commitment) (_proof : Proof) (_d : Domain) : Bool :=
  true

/-- The loop `for (power = 1; power <= domain_size; power++) d.emplace_back(omega.pow(power))`
of `prepare_domain` (lines 100-102): `count` iterations are left, the next power is
`power`. -/
def prepare_domain_loop {F : Type} (pow : F → Nat → F) (omega : F) :
    Nat → Nat → List F → List F
  | 0, _, d => d
  | count + 1, power, d => prepare_domain_loop pow omega count (power + 1) (d ++ [pow omega power])

/-- The function `list_polynomial_commitment_scheme::prepare_domain` (lines 96-104);
`default` is the value-initialised field value, `unity_root` and `power_of_two` are the
`math` collaborators and `pow` is the field value's `pow`. -/
def prepare_domain {F : Type} (default : F) (unity_root : Nat → F) (power_of_two : Nat → Nat)
    (pow : F → Nat → F) (domain_size : Nat) : List F :=
  let omega := unity_root (power_of_two domain_size)
  let d := List.replicate domain_size default
  prepare_domain_loop pow omega domain_size 1 d

/-! ## Sample collaborators for the concrete instances -/

/-- Sample collaborators of the final exponentiation: the integers written
multiplicatively, with `z = -3`. -/
def sample_final_exponentiation_collaborators :
    final_exponentiation_collaborators (Multiplicative Int) where
  cyclotomic_squared := fun x => x ^ 2
  unitary_inversed := fun x => x⁻¹
  cyclotomic_exp := fun x n => x ^ n
  Frobenius_map := fun x k => x ^ (5 ^ k)
  final_exponent_z := 3
  final_exponent_is_z_neg := true

/-- Sample `inversed` on the field with `13` elements: the eleventh power. -/
def sample_inversed (x : ZMod 13) : ZMod 13 := x ^ 11

/-! ## Representation predicate -/

/-- The element `x` lives in the context `p` and its base is congruent, modulo the
modulus, to the transformed representation of `v`. -/
def Represents (p : modular_params) (v : Int) (x : modular_adaptor) : Prop :=
  x.m_mod = p ∧ x.m_base ≡ v * p.r [ZMOD p.m_mod]

/-! ## Lemmas on the reduction context -/

theorem odd_half_inv (M : Int) (hodd : M % 2 = 1) : 2 * ((M + 1) / 2) = M + 1 := by
  omega

/-- The factor and its inverse multiply to one modulo the modulus. -/
theorem r_mul_r_inv (p : modular_params) :
    (p.r * p.r_inv) % p.m_mod = 1 % p.m_mod := by
  unfold modular_params.r modular_params.r_inv
  by_cases h : 0 < p.m_mod ∧ p.m_mod % 2 = 1
  · rw [if_pos h, if_pos h]
    rw [← Int.mul_emod, ← mul_pow, odd_half_inv p.m_mod h.2]
    have h1 : (p.m_mod + 1) ≡ 1 [ZMOD p.m_mod] := by
      rw [Int.modEq_iff_dvd]; exact ⟨-1, by ring⟩
    have h2 := h1.pow p.r_bits
    rw [one_pow] at h2
    exact h2
  · rw [if_neg h, if_neg h]; rfl

/-- A value congruent to `v * r` is mapped by `adjust_regular` to `v mod M`. -/
theorem adjust_regular_of_modEq (p : modular_params) (t v : Int)
    (h : t ≡ v * p.r [ZMOD p.m_mod]) : p.adjust_regular t = v % p.m_mod := by
  unfold modular_params.adjust_regular
  have h1 : t * p.r_inv ≡ v * p.r * p.r_inv [ZMOD p.m_mod] := h.mul_right _
  have h2 : p.r * p.r_inv ≡ 1 [ZMOD p.m_mod] := r_mul_r_inv p
  have h3 : v * (p.r * p.r_inv) ≡ v * 1 [ZMOD p.m_mod] := h2.mul_left v
  rw [mul_one, ← mul_assoc] at h3
  exact h1.trans h3

theorem adjust_modular_modEq (p : modular_params) (v : Int) :
    p.adjust_modular v ≡ v * p.r [ZMOD p.m_mod] := by
  unfold modular_params.adjust_modular
  exact Int.mod_modEq _ _

/-- Round trip: `adjust_regular` undoes `adjust_modular` up to reduction. -/
theorem adjust_regular_adjust_modular (p : modular_params) (v : Int) :
    p.adjust_regular (p.adjust_modular v) = v % p.m_mod :=
  adjust_regular_of_modEq p _ _ (adjust_modular_modEq p v)

/-- The truncated remainder leaves a Euclidean remainder by the same modulus unchanged. -/
theorem tmod_emod_self (x M : Int) : Int.tmod (x % M) M = x % M := by
  rcases lt_trichotomy M 0 with h | h | h
  · have h1 := Int.emod_nonneg x (ne_of_lt h)
    have h2 := Int.emod_lt x (ne_of_lt h)
    rw [← Int.tmod_neg, Int.tmod_eq_of_lt h1 (by rw [abs_of_neg h] at h2; exact h2)]
  · subst h; simp
  · rw [Int.tmod_eq_emod (Int.emod_nonneg _ (ne_of_gt h)) (le_of_lt h), Int.emod_emod]

/-- The function `eval_redc` is multiplication by the inverse factor, reduced. -/
theorem eval_redc_eq (p : modular_params) (wide : Int) :
    eval_redc wide p = (wide * p.r_inv) % p.m_mod := by
  unfold eval_redc backend_eval_modulus modular_params.reduce modular_params.get_mod
  exact tmod_emod_self _ _

/-- The product of two transformed values is the transformed product. -/
theorem eval_multiply_adjust_modular (p : modular_params) (u v : Int) :
    eval_multiply ⟨p.adjust_modular u, p⟩ ⟨p.adjust_modular v, p⟩
      = .ok ⟨p.adjust_modular (u * v), p⟩ := by
  unfold eval_multiply
  simp only [ne_eq, not_true_eq_false, if_false, eval_redc_eq p]
  congr 2
  have h1 : p.adjust_modular u * p.adjust_modular v ≡ (u * p.r) * (v * p.r) [ZMOD p.m_mod] :=
    (adjust_modular_modEq p u).mul (adjust_modular_modEq p v)
  have h2 : p.r * p.r_inv ≡ 1 [ZMOD p.m_mod] := r_mul_r_inv p
  have h3 : p.adjust_modular u * p.adjust_modular v * p.r_inv
      ≡ (u * p.r) * (v * p.r) * p.r_inv [ZMOD p.m_mod] := h1.mul_right _
  have h4 : (u * v * p.r) * (p.r * p.r_inv) ≡ (u * v * p.r) * 1 [ZMOD p.m_mod] := h2.mul_left _
  have h5 : (u * p.r) * (v * p.r) * p.r_inv = (u * v * p.r) * (p.r * p.r_inv) := by ring
  rw [h5] at h3
  rw [mul_one] at h4
  unfold modular_params.adjust_modular at *
  exact (h3.trans h4)

/-! ## Lemmas on the exponentiation loops -/

theorem lt_two_pow_bit_length_aux (fuel : Nat) :
    ∀ n : Nat, n ≤ fuel → n < 2 ^ bit_length_aux fuel n := by
  induction fuel with
  | zero => intro n hn; simp [bit_length_aux]; omega
  | succ f ih =>
    intro n hn
    unfold bit_length_aux
    split
    · omega
    · have h := ih (n / 2) (by omega)
      rw [pow_succ]
      omega

theorem lt_two_pow_eval_msb_succ (e : Nat) : e < 2 ^ (eval_msb e + 1) := by
  have h := lt_two_pow_bit_length_aux e e (le_refl e)
  have h2 : bit_length_aux e e ≤ eval_msb e + 1 := by
    unfold eval_msb bit_length; omega
  exact lt_of_lt_of_le h (Nat.pow_le_pow_right (by decide) h2)

theorem window_bits_eq_one (n : Nat) : window_bits n = 1 := by
  simp [window_bits, window_bits_scan, wsize, wsize_count]

theorem pow_table_chain_spec (p : modular_params) (a : Int) :
    ∀ (n k : Nat), ∃ l, pow_table_chain ⟨p.adjust_modular a, p⟩ ⟨p.adjust_modular (a ^ k), p⟩ n
        = .ok l ∧ l.length = n ∧
        ∀ i, i < n → l.get? i = some ⟨p.adjust_modular (a ^ (k + 1 + i)), p⟩ := by
  intro n
  induction n with
  | zero => intro k; exact ⟨[], rfl, rfl, fun i hi => absurd hi (Nat.not_lt_zero i)⟩
  | succ n ih =>
    intro k
    obtain ⟨l, hl, hlen, hget⟩ := ih (k + 1)
    refine ⟨⟨p.adjust_modular (a ^ (k + 1)), p⟩ :: l, ?_, ?_, ?_⟩
    · unfold pow_table_chain
      rw [eval_multiply_adjust_modular p, ← pow_succ]
      simp only [hl]
    · simp [hlen]
    · intro i hi
      cases i with
      | zero => rfl
      | succ i =>
        have := hget i (by omega)
        simp only [List.get?_cons_succ, this]
        congr 4
        omega

/-- Below `32` the 32-bit shift `1U << w` is `1 <<< w`. -/
theorem unsigned_one_shift_left_of_lt (w : Nat) (hw : w < 32) :
    unsigned_one_shift_left w = .ok (1 <<< w) := by
  unfold unsigned_one_shift_left
  rw [if_pos hw, Nat.one_shiftLeft,
    Nat.mod_eq_of_lt (Nat.pow_lt_pow_right (by decide) hw)]

theorem pow_table_spec (p : modular_params) (a : Int) (w : Nat) (hw32 : w < 32) :
    ∃ m_g, pow_table w ⟨p.adjust_modular 1, p⟩ ⟨p.adjust_modular a, p⟩ = .ok m_g ∧
      ∀ d, d < 2 ^ w → m_g.get? d = some ⟨p.adjust_modular (a ^ d), p⟩ := by
  have h1 := pow_table_chain_spec p a ((1 <<< w) - 2) 1
  rw [pow_one] at h1
  obtain ⟨l, hl, hlen, hget⟩ := h1
  refine ⟨⟨p.adjust_modular 1, p⟩ :: ⟨p.adjust_modular a, p⟩ :: l, ?_, ?_⟩
  · unfold pow_table
    simp only [unsigned_one_shift_left_of_lt w hw32, hl]
  · intro d hd
    match d with
    | 0 => simp
    | 1 => simp
    | d + 2 =>
      have h2 : d < (1 <<< w) - 2 := by
        rw [Nat.one_shiftLeft]; omega
      have := hget d h2
      simp only [List.get?_cons_succ, this]
      congr 4
      omega

theorem pow_exp_index_spec (w : Nat) :
    ∀ (n e i : Nat), i < n →
      (pow_exp_index w ((1 <<< w) - 1) n e).get? i = some ((e / 2 ^ (w * i)) % 2 ^ w) := by
  intro n
  induction n with
  | zero => intro e i hi; omega
  | succ n ih =>
    intro e i hi
    unfold pow_exp_index
    cases i with
    | zero =>
      simp [Nat.one_shiftLeft, Nat.and_pow_two_sub_one_eq_mod]
    | succ i =>
      simp only [List.get?_cons_succ]
      rw [ih _ i (by omega), Nat.shiftRight_eq_div_pow, Nat.div_div_eq_div_mul,
        Nat.mul_succ, pow_add, Nat.mul_comm (2 ^ w)]

theorem pow_square_loop_spec (p : modular_params) :
    ∀ (j : Nat) (v : Int),
      pow_square_loop j ⟨p.adjust_modular v, p⟩ = .ok ⟨p.adjust_modular (v ^ 2 ^ j), p⟩ := by
  intro j
  induction j with
  | zero => intro v; simp [pow_square_loop]
  | succ j ih =>
    intro v
    unfold pow_square_loop number_mul
    rw [eval_multiply_adjust_modular p]
    simp only [ih]
    congr 3
    rw [pow_succ, pow_mul', pow_two]


theorem pow_lookup_spec (p : modular_params) (a : Int) (w e : Nat)
    (m_g : List modular_adaptor) (exp_index : List Nat)
    (hg : ∀ d, d < 2 ^ w → m_g.get? d = some ⟨p.adjust_modular (a ^ d), p⟩)
    (i : Nat) (hi : exp_index.get? i = some ((e / 2 ^ (w * i)) % 2 ^ w)) :
    pow_lookup m_g exp_index i
      = .ok ⟨p.adjust_modular (a ^ ((e / 2 ^ (w * i)) % 2 ^ w)), p⟩ := by
  unfold pow_lookup
  simp only [hi]
  rw [hg _ (Nat.mod_lt _ (Nat.two_pow_pos w))]

theorem pow_main_loop_spec (p : modular_params) (a : Int) (w e : Nat)
    (m_g : List modular_adaptor) (exp_index : List Nat)
    (hg : ∀ d, d < 2 ^ w → m_g.get? d = some ⟨p.adjust_modular (a ^ d), p⟩) :
    ∀ (i : Nat), (∀ j, j < i → exp_index.get? j = some ((e / 2 ^ (w * j)) % 2 ^ w)) →
      ∀ k : Nat, pow_main_loop w m_g exp_index i ⟨p.adjust_modular (a ^ k), p⟩
        = .ok ⟨p.adjust_modular (a ^ (k * 2 ^ (w * i) + e % 2 ^ (w * i))), p⟩ := by
  intro i
  induction i with
  | zero =>
    intro _ k
    simp [pow_main_loop, Nat.mod_one]
  | succ i ih =>
    intro hidx k
    unfold pow_main_loop
    rw [pow_square_loop_spec p]
    simp only
    rw [pow_lookup_spec p a w e m_g exp_index hg i (hidx i (Nat.lt_succ_self i))]
    simp only [number_mul]
    rw [eval_multiply_adjust_modular p, ← pow_mul, ← pow_add]
    simp only
    rw [ih (fun j hj => hidx j (Nat.lt_succ_of_lt hj))]
    congr 4
    have h1 : e % 2 ^ (w * (i + 1)) = e % 2 ^ (w * i) + 2 ^ (w * i) * (e / 2 ^ (w * i) % 2 ^ w) := by
      rw [Nat.mul_succ, pow_add, Nat.mod_mul]
    rw [h1, Nat.mul_succ, pow_add]
    ring

theorem find_modular_pow_window_spec (p : modular_params) (a : Int)
    (w exp_bits e : Nat) (hw : 1 ≤ w) (hw32 : w < 32) (he : e < 2 ^ (exp_bits + 1)) :
    find_modular_pow_window w exp_bits ⟨p.adjust_modular a, p⟩ e
      = .ok ⟨p.adjust_modular (a ^ e), p⟩ := by
  obtain ⟨m_g, htab, hg⟩ := pow_table_spec p a w hw32
  have hn : 1 ≤ (exp_bits + 1 + w - 1) / w := by
    apply (Nat.one_le_div_iff (by omega)).2; omega
  have hidx := pow_exp_index_spec w ((exp_bits + 1 + w - 1) / w) e
  unfold find_modular_pow_window
  simp only [assign_components, modular_params.get_mod]
  rw [htab]
  simp only
  rw [pow_lookup_spec p a w e m_g _ hg _ (hidx _ (by omega))]
  simp only [number_mul]
  rw [eval_multiply_adjust_modular p, one_mul]
  simp only
  rw [pow_main_loop_spec p a w e m_g _ hg _ (fun j hj => hidx j (by omega))]
  congr 4
  have h1 : e % 2 ^ (w * ((exp_bits + 1 + w - 1) / w - 1 + 1))
      = e % 2 ^ (w * ((exp_bits + 1 + w - 1) / w - 1))
        + 2 ^ (w * ((exp_bits + 1 + w - 1) / w - 1))
          * (e / 2 ^ (w * ((exp_bits + 1 + w - 1) / w - 1)) % 2 ^ w) := by
    rw [Nat.mul_succ, pow_add, Nat.mod_mul]
  have h2 : (exp_bits + 1 + w - 1) / w - 1 + 1 = (exp_bits + 1 + w - 1) / w := by omega
  rw [h2] at h1
  have h3 : exp_bits + 1 ≤ w * ((exp_bits + 1 + w - 1) / w) := by
    have h4 := Nat.div_add_mod (exp_bits + 1 + w - 1) w
    have h5 := Nat.mod_lt (exp_bits + 1 + w - 1) (show 0 < w by omega)
    omega
  have h6 : e % 2 ^ (w * ((exp_bits + 1 + w - 1) / w)) = e :=
    Nat.mod_eq_of_lt (lt_of_lt_of_le he (Nat.pow_le_pow_right (by decide) h3))
  rw [h6] at h1
  rw [Nat.mul_comm]
  omega

/-- On `[0, M)`, `adjust_modular` undoes `adjust_regular`. -/
theorem adjust_modular_adjust_regular (p : modular_params) (t : Int)
    (ht : 0 ≤ t ∧ t < p.m_mod) : p.adjust_modular (p.adjust_regular t) = t := by
  have h1 : p.adjust_regular t * p.r ≡ t * p.r_inv * p.r [ZMOD p.m_mod] := by
    unfold modular_params.adjust_regular
    exact (Int.mod_modEq _ _).mul_right _
  have h2 : t * (p.r * p.r_inv) ≡ t * 1 [ZMOD p.m_mod] :=
    Int.ModEq.mul_left t (r_mul_r_inv p)
  have h3 : t * p.r_inv * p.r = t * (p.r * p.r_inv) := by ring
  rw [h3] at h1
  rw [mul_one] at h2
  have h4 : (p.adjust_regular t * p.r) % p.m_mod = t % p.m_mod := h1.trans h2
  unfold modular_params.adjust_modular
  rw [h4, Int.emod_eq_of_lt ht.1 ht.2]

/-- The reference loop computes `result * base ^ e mod M`. -/
theorem naive_pow_mod_loop_spec (M : Int) :
    ∀ (fuel e : Nat) (result base : Int), e ≤ fuel → result % M = result →
      naive_pow_mod_loop M fuel result base e = (result * base ^ e) % M := by
  intro fuel
  induction fuel with
  | zero =>
    intro e result base he hr
    have : e = 0 := by omega
    subst this
    simp [naive_pow_mod_loop, hr]
  | succ fuel ih =>
    intro e result base he hr
    unfold naive_pow_mod_loop
    split
    · next h0 => subst h0; simp [hr]
    · next h0 =>
      have hsq : ((base * base) % M) ^ (e / 2) ≡ base ^ (2 * (e / 2)) [ZMOD M] := by
        rw [pow_mul, pow_two]
        exact (Int.mod_modEq _ _).pow _
      by_cases hodd : e % 2 = 1
      · rw [if_pos hodd, ih (e / 2) _ _ (by omega) (Int.emod_emod _ _)]
        have h1 : (result * base) % M * ((base * base) % M) ^ (e / 2)
            ≡ (result * base) * base ^ (2 * (e / 2)) [ZMOD M] :=
          (Int.mod_modEq _ _).mul hsq
        have h2 : (result * base) * base ^ (2 * (e / 2)) = result * base ^ e := by
          have : e = 2 * (e / 2) + 1 := by omega
          rw [mul_assoc, ← pow_succ', ← this]
        rw [h2] at h1
        exact h1
      · rw [if_neg hodd, ih (e / 2) _ _ (by omega) hr]
        have h1 : result * ((base * base) % M) ^ (e / 2)
            ≡ result * base ^ (2 * (e / 2)) [ZMOD M] := hsq.mul_left _
        have h2 : 2 * (e / 2) = e := by omega
        rw [h2] at h1
        exact h1

/-- The square-and-multiply reference computes `a ^ e mod M`. -/
theorem naive_pow_mod_eq (M a : Int) (e : Nat) : naive_pow_mod M a e = a ^ e % M := by
  unfold naive_pow_mod
  rw [naive_pow_mod_loop_spec M e e _ _ (le_refl e) (Int.emod_emod _ _)]
  have h1 : (1 % M) * (a % M) ^ e ≡ 1 * a ^ e [ZMOD M] :=
    (Int.mod_modEq _ _).mul ((Int.mod_modEq _ _).pow _)
  rw [one_mul] at h1
  exact h1

/-- On the transformed `a`, `find_modular_pow` returns the transformed `a ^ e`. -/
theorem find_modular_pow_adjust_modular (M a : Int) (e : Nat) :
    find_modular_pow ⟨(⟨M⟩ : modular_params).adjust_modular a, ⟨M⟩⟩ e
      = .ok ⟨(⟨M⟩ : modular_params).adjust_modular (a ^ e), ⟨M⟩⟩ := by
  unfold find_modular_pow
  simp only [window_bits_eq_one]
  exact find_modular_pow_window_spec ⟨M⟩ a 1 (eval_msb e) e (le_refl 1) (by decide)
    (lt_two_pow_eval_msb_succ e)

/-! ## Lemmas on representatives and on exponentiation from any base -/

/-- Every base represents its own canonical value. -/
theorem represents_adjust_regular (x : modular_adaptor) :
    Represents x.m_mod (x.m_mod.adjust_regular x.m_base) x := by
  refine ⟨rfl, ?_⟩
  have h1 : x.m_mod.adjust_regular x.m_base * x.m_mod.r
      ≡ x.m_base * x.m_mod.r_inv * x.m_mod.r [ZMOD x.m_mod.m_mod] := by
    unfold modular_params.adjust_regular
    exact (Int.mod_modEq _ _).mul_right _
  have h2 : x.m_base * (x.m_mod.r * x.m_mod.r_inv) ≡ x.m_base * 1 [ZMOD x.m_mod.m_mod] :=
    Int.ModEq.mul_left _ (r_mul_r_inv x.m_mod)
  have h3 : x.m_base * x.m_mod.r_inv * x.m_mod.r = x.m_base * (x.m_mod.r * x.m_mod.r_inv) := by
    ring
  rw [h3] at h1
  rw [mul_one] at h2
  exact (h1.trans h2).symm

/-- The transformed representation of `v` represents `v`. -/
theorem represents_adjust_modular (p : modular_params) (v : Int) :
    Represents p v ⟨p.adjust_modular v, p⟩ :=
  ⟨rfl, adjust_modular_modEq p v⟩

/-- Reducing the product of representatives of `u` and `v` gives the transformed `u * v`. -/
theorem reduce_of_modEq (p : modular_params) (x y u v : Int)
    (hx : x ≡ u * p.r [ZMOD p.m_mod]) (hy : y ≡ v * p.r [ZMOD p.m_mod]) :
    p.reduce (x * y) = p.adjust_modular (u * v) := by
  have h1 : x * y ≡ (u * p.r) * (v * p.r) [ZMOD p.m_mod] := hx.mul hy
  have h2 : p.r * p.r_inv ≡ 1 [ZMOD p.m_mod] := r_mul_r_inv p
  have h3 : x * y * p.r_inv ≡ (u * p.r) * (v * p.r) * p.r_inv [ZMOD p.m_mod] := h1.mul_right _
  have h4 : (u * v * p.r) * (p.r * p.r_inv) ≡ (u * v * p.r) * 1 [ZMOD p.m_mod] := h2.mul_left _
  have h5 : (u * p.r) * (v * p.r) * p.r_inv = (u * v * p.r) * (p.r * p.r_inv) := by ring
  rw [h5] at h3
  rw [mul_one] at h4
  unfold modular_params.reduce modular_params.adjust_modular
  exact h3.trans h4

/-- The product of representatives of `u` and `v` is the transformed `u * v`. -/
theorem eval_multiply_represents (p : modular_params) (x y : modular_adaptor) (u v : Int)
    (hx : Represents p u x) (hy : Represents p v y) :
    eval_multiply x y = .ok ⟨p.adjust_modular (u * v), p⟩ := by
  obtain ⟨bx, px⟩ := x
  obtain ⟨by', py⟩ := y
  obtain ⟨hpx, hbx⟩ := hx
  obtain ⟨hpy, hby⟩ := hy
  simp only at hpx hpy hbx hby
  subst hpx
  subst hpy
  unfold eval_multiply
  simp only [ne_eq, not_true_eq_false, if_false, eval_redc_eq]
  have := reduce_of_modEq _ bx by' u v hbx hby
  unfold modular_params.reduce at this
  rw [this]


theorem pow_table_chain_represents (p : modular_params) (a : Int) (b : modular_adaptor)
    (hb : Represents p a b) :
    ∀ (n k : Nat) (prev : modular_adaptor), Represents p (a ^ k) prev →
      ∃ l, pow_table_chain b prev n = .ok l ∧ l.length = n ∧
        ∀ i, i < n → l.get? i = some ⟨p.adjust_modular (a ^ (k + 1 + i)), p⟩ := by
  intro n
  induction n with
  | zero => intro k prev _; exact ⟨[], rfl, rfl, fun i hi => absurd hi (Nat.not_lt_zero i)⟩
  | succ n ih =>
    intro k prev hprev
    obtain ⟨l, hl, hlen, hget⟩ :=
      ih (k + 1) ⟨p.adjust_modular (a ^ (k + 1)), p⟩ (represents_adjust_modular p _)
    refine ⟨⟨p.adjust_modular (a ^ (k + 1)), p⟩ :: l, ?_, ?_, ?_⟩
    · unfold pow_table_chain
      rw [eval_multiply_represents p prev b _ _ hprev hb, ← pow_succ]
      simp only [hl]
    · simp [hlen]
    · intro i hi
      cases i with
      | zero => rfl
      | succ i =>
        have := hget i (by omega)
        simp only [List.get?_cons_succ, this]
        congr 4
        omega

theorem pow_table_represents (p : modular_params) (a : Int) (w : Nat) (hw32 : w < 32)
    (x b : modular_adaptor) (hx : Represents p 1 x) (hb : Represents p a b) :
    ∃ m_g, pow_table w x b = .ok m_g ∧
      ∀ d, d < 2 ^ w → ∃ g, m_g.get? d = some g ∧ Represents p (a ^ d) g := by
  have hb1 : Represents p (a ^ 1) b := by rw [pow_one]; exact hb
  obtain ⟨l, hl, hlen, hget⟩ := pow_table_chain_represents p a b hb ((1 <<< w) - 2) 1 b hb1
  refine ⟨x :: b :: l, ?_, ?_⟩
  · unfold pow_table
    simp only [unsigned_one_shift_left_of_lt w hw32, hl]
  · intro d hd
    match d with
    | 0 => exact ⟨x, rfl, by rw [pow_zero]; exact hx⟩
    | 1 => exact ⟨b, rfl, hb1⟩
    | d + 2 =>
      have h2 : d < (1 <<< w) - 2 := by
        rw [Nat.one_shiftLeft]; omega
      have := hget d h2
      refine ⟨⟨p.adjust_modular (a ^ (1 + 1 + d)), p⟩, ?_, ?_⟩
      · simp only [List.get?_cons_succ, this]
      · have h3 : d + 2 = 1 + 1 + d := by omega
        rw [h3]
        exact represents_adjust_modular p _

theorem pow_lookup_represents (p : modular_params) (a : Int) (w e : Nat)
    (m_g : List modular_adaptor) (exp_index : List Nat)
    (hg : ∀ d, d < 2 ^ w → ∃ g, m_g.get? d = some g ∧ Represents p (a ^ d) g)
    (i : Nat) (hi : exp_index.get? i = some ((e / 2 ^ (w * i)) % 2 ^ w)) :
    ∃ g, pow_lookup m_g exp_index i = .ok g ∧
      Represents p (a ^ ((e / 2 ^ (w * i)) % 2 ^ w)) g := by
  obtain ⟨g, hg1, hg2⟩ := hg _ (Nat.mod_lt (e / 2 ^ (w * i)) (Nat.two_pow_pos w))
  refine ⟨g, ?_, hg2⟩
  unfold pow_lookup
  simp only [hi, hg1]

theorem pow_main_loop_represents (p : modular_params) (a : Int) (w e : Nat)
    (m_g : List modular_adaptor) (exp_index : List Nat)
    (hg : ∀ d, d < 2 ^ w → ∃ g, m_g.get? d = some g ∧ Represents p (a ^ d) g) :
    ∀ (i : Nat), (∀ j, j < i → exp_index.get? j = some ((e / 2 ^ (w * j)) % 2 ^ w)) →
      ∀ k : Nat, pow_main_loop w m_g exp_index i ⟨p.adjust_modular (a ^ k), p⟩
        = .ok ⟨p.adjust_modular (a ^ (k * 2 ^ (w * i) + e % 2 ^ (w * i))), p⟩ := by
  intro i
  induction i with
  | zero =>
    intro _ k
    simp [pow_main_loop, Nat.mod_one]
  | succ i ih =>
    intro hidx k
    obtain ⟨g, hlook, hrep⟩ :=
      pow_lookup_represents p a w e m_g exp_index hg i (hidx i (Nat.lt_succ_self i))
    unfold pow_main_loop
    rw [pow_square_loop_spec p]
    simp only
    rw [hlook]
    simp only [number_mul]
    rw [eval_multiply_represents p _ g _ _ (represents_adjust_modular p _) hrep,
      ← pow_mul, ← pow_add]
    simp only
    rw [ih (fun j hj => hidx j (Nat.lt_succ_of_lt hj))]
    congr 4
    have h1 : e % 2 ^ (w * (i + 1)) = e % 2 ^ (w * i) + 2 ^ (w * i) * (e / 2 ^ (w * i) % 2 ^ w) := by
      rw [Nat.mul_succ, pow_add, Nat.mod_mul]
    rw [h1, Nat.mul_succ, pow_add]
    ring

theorem find_modular_pow_window_represents (a : Int) (b : modular_adaptor)
    (w exp_bits e : Nat) (hb : Represents b.m_mod a b) (hw : 1 ≤ w) (hw32 : w < 32)
    (he : e < 2 ^ (exp_bits + 1)) :
    find_modular_pow_window w exp_bits b e
      = .ok ⟨b.m_mod.adjust_modular (a ^ e), b.m_mod⟩ := by
  have hx : Represents b.m_mod 1 (assign_components 1 b.m_mod.get_mod) :=
    represents_adjust_modular b.m_mod 1
  obtain ⟨m_g, htab, hg⟩ := pow_table_represents b.m_mod a w hw32 _ b hx hb
  have hn : 1 ≤ (exp_bits + 1 + w - 1) / w := by
    apply (Nat.one_le_div_iff (by omega)).2; omega
  have hidx := pow_exp_index_spec w ((exp_bits + 1 + w - 1) / w) e
  obtain ⟨g, hlook, hrep⟩ :=
    pow_lookup_represents b.m_mod a w e m_g _ hg _ (hidx ((exp_bits + 1 + w - 1) / w - 1) (by omega))
  unfold find_modular_pow_window
  simp only
  rw [htab]
  simp only
  rw [hlook]
  simp only [number_mul]
  rw [eval_multiply_represents b.m_mod _ g _ _ hx hrep, one_mul]
  simp only
  rw [pow_main_loop_represents b.m_mod a w e m_g _ hg _ (fun j hj => hidx j (by omega))]
  congr 4
  have h1 : e % 2 ^ (w * ((exp_bits + 1 + w - 1) / w - 1 + 1))
      = e % 2 ^ (w * ((exp_bits + 1 + w - 1) / w - 1))
        + 2 ^ (w * ((exp_bits + 1 + w - 1) / w - 1))
          * (e / 2 ^ (w * ((exp_bits + 1 + w - 1) / w - 1)) % 2 ^ w) := by
    rw [Nat.mul_succ, pow_add, Nat.mod_mul]
  have h2 : (exp_bits + 1 + w - 1) / w - 1 + 1 = (exp_bits + 1 + w - 1) / w := by omega
  rw [h2] at h1
  have h3 : exp_bits + 1 ≤ w * ((exp_bits + 1 + w - 1) / w) := by
    have h4 := Nat.div_add_mod (exp_bits + 1 + w - 1) w
    have h5 := Nat.mod_lt (exp_bits + 1 + w - 1) (show 0 < w by omega)
    omega
  have h6 : e % 2 ^ (w * ((exp_bits + 1 + w - 1) / w)) = e :=
    Nat.mod_eq_of_lt (lt_of_lt_of_le he (Nat.pow_le_pow_right (by decide) h3))
  rw [h6] at h1
  rw [Nat.mul_comm]
  omega

theorem doubled_limbs_of_range (MinBits : Nat) (M x : Int) (hx : 0 ≤ x ∧ x < M)
    (hfit : M < 2 ^ MinBits) : (doubled_limbs MinBits x : Int) = x := by
  unfold doubled_limbs
  have h1 : (2 : Int) ^ MinBits ≤ 2 ^ (2 * MinBits) :=
    pow_le_pow_right₀ (by norm_num) (by omega)
  rw [Int.emod_eq_of_lt hx.1 (by omega), Int.toNat_of_nonneg hx.1]

/-! ## Ring operations -/

/-- C1 (additive correctness): for every modulus `M` and all `a`, `b` in `[0, M)`,
`eval_add` of the transformed `a` and `b` succeeds and the canonical value of its base
is `(a + b) mod M`. -/
theorem eval_add_correct (M a b : Int) (_ha : 0 ≤ a ∧ a < M) (_hb : 0 ≤ b ∧ b < M) :
    (eval_add ⟨(⟨M⟩ : modular_params).adjust_modular a, ⟨M⟩⟩
        ⟨(⟨M⟩ : modular_params).adjust_modular b, ⟨M⟩⟩).map
      (fun r => r.m_mod.adjust_regular r.m_base) = .ok ((a + b) % M) := by
  have hx := adjust_modular_modEq ⟨M⟩ a
  have hy := adjust_modular_modEq ⟨M⟩ b
  have hxy : (⟨M⟩ : modular_params).adjust_modular a + (⟨M⟩ : modular_params).adjust_modular b
      ≡ (a + b) * (⟨M⟩ : modular_params).r [ZMOD M] := by
    rw [add_mul]; exact hx.add hy
  unfold eval_add
  simp only [ne_eq, not_true_eq_false, if_false, modular_params.get_mod]
  split
  · simp only [Except.map]
    congr 1
    apply adjust_regular_of_modEq ⟨M⟩
    refine Int.ModEq.trans ?_ hxy
    rw [Int.modEq_iff_dvd]
    exact ⟨1, by simp⟩
  · simp only [Except.map]
    congr 1
    exact adjust_regular_of_modEq ⟨M⟩ _ _ hxy

/-- Witness of C1: `M = 13`, `a = 4`, `b = 10` gives `1`. -/
theorem eval_add_correct_witness :
    ((0 : Int) ≤ 4 ∧ (4 : Int) < 13) ∧ ((0 : Int) ≤ 10 ∧ (10 : Int) < 13) ∧
    (eval_add ⟨(⟨13⟩ : modular_params).adjust_modular 4, ⟨13⟩⟩
        ⟨(⟨13⟩ : modular_params).adjust_modular 10, ⟨13⟩⟩).map
      (fun r => r.m_mod.adjust_regular r.m_base) = .ok 1 :=
  ⟨by decide, by decide, eval_add_correct 13 4 10 (by decide) (by decide)⟩

/-- C2 (multiplicative correctness): for every modulus `M` and all `a`, `b` in
`[0, M)`, `eval_multiply` of the transformed `a` and `b` succeeds and the canonical
value of its base is `(a * b) mod M`. -/
theorem eval_multiply_correct (M a b : Int) (_ha : 0 ≤ a ∧ a < M) (_hb : 0 ≤ b ∧ b < M) :
    (eval_multiply ⟨(⟨M⟩ : modular_params).adjust_modular a, ⟨M⟩⟩
        ⟨(⟨M⟩ : modular_params).adjust_modular b, ⟨M⟩⟩).map
      (fun r => r.m_mod.adjust_regular r.m_base) = .ok ((a * b) % M) := by
  rw [eval_multiply_adjust_modular ⟨M⟩ a b]
  simp only [Except.map]
  congr 1
  exact adjust_regular_adjust_modular ⟨M⟩ (a * b)

/-- Witness of C2: `M = 13`, `a = 4`, `b = 10` gives `40 mod 13 = 1`. -/
theorem eval_multiply_correct_witness :
    ((0 : Int) ≤ 4 ∧ (4 : Int) < 13) ∧ ((0 : Int) ≤ 10 ∧ (10 : Int) < 13) ∧
    (eval_multiply ⟨(⟨13⟩ : modular_params).adjust_modular 4, ⟨13⟩⟩
        ⟨(⟨13⟩ : modular_params).adjust_modular 10, ⟨13⟩⟩).map
      (fun r => r.m_mod.adjust_regular r.m_base) = .ok 1 :=
  ⟨by decide, by decide, eval_multiply_correct 13 4 10 (by decide) (by decide)⟩

/-- C3 (subtraction correctness): for every modulus `M` and all `a`, `b` in `[0, M)`,
`eval_subtract` of the transformed `a` and `b` succeeds and the canonical value of its
base is `(a - b + M) mod M`. -/
theorem eval_subtract_correct (M a b : Int) (_ha : 0 ≤ a ∧ a < M) (_hb : 0 ≤ b ∧ b < M) :
    (eval_subtract ⟨(⟨M⟩ : modular_params).adjust_modular a, ⟨M⟩⟩
        ⟨(⟨M⟩ : modular_params).adjust_modular b, ⟨M⟩⟩).map
      (fun r => r.m_mod.adjust_regular r.m_base) = .ok ((a - b + M) % M) := by
  have hx := adjust_modular_modEq ⟨M⟩ a
  have hy := adjust_modular_modEq ⟨M⟩ b
  have hxy : (⟨M⟩ : modular_params).adjust_modular a - (⟨M⟩ : modular_params).adjust_modular b
      ≡ (a - b + M) * (⟨M⟩ : modular_params).r [ZMOD M] := by
    have h1 := hx.sub hy
    refine h1.trans ?_
    rw [Int.modEq_iff_dvd]
    exact ⟨(⟨M⟩ : modular_params).r, by ring⟩
  unfold eval_subtract
  simp only [ne_eq, not_true_eq_false, if_false, modular_params.get_mod]
  split
  · simp only [Except.map]
    congr 1
    apply adjust_regular_of_modEq ⟨M⟩
    refine Int.ModEq.trans ?_ hxy
    rw [Int.modEq_iff_dvd]
    exact ⟨-1, by ring⟩
  · simp only [Except.map]
    congr 1
    exact adjust_regular_of_modEq ⟨M⟩ _ _ hxy

/-- Witness of C3: `M = 13`, `a = 4`, `b = 10` gives `(4 - 10 + 13) mod 13 = 7`. -/
theorem eval_subtract_correct_witness :
    ((0 : Int) ≤ 4 ∧ (4 : Int) < 13) ∧ ((0 : Int) ≤ 10 ∧ (10 : Int) < 13) ∧
    (eval_subtract ⟨(⟨13⟩ : modular_params).adjust_modular 4, ⟨13⟩⟩
        ⟨(⟨13⟩ : modular_params).adjust_modular 10, ⟨13⟩⟩).map
      (fun r => r.m_mod.adjust_regular r.m_base) = .ok 7 :=
  ⟨by decide, by decide, eval_subtract_correct 13 4 10 (by decide) (by decide)⟩

/-! ## Exponentiation -/

/-- C4 (exponentiation correctness): for every modulus `M`, every `a` in `[0, M)` and
every exponent `e >= 1`, `find_modular_pow` of the transformed `a` succeeds and the
canonical value of its base is the value of the naive square-and-multiply reference,
which is `a ^ e mod M`. -/
theorem find_modular_pow_correct (M a : Int) (e : Nat) (_ha : 0 ≤ a ∧ a < M) (_he : 1 ≤ e) :
    (find_modular_pow ⟨(⟨M⟩ : modular_params).adjust_modular a, ⟨M⟩⟩ e).map
        (fun r => r.m_mod.adjust_regular r.m_base) = .ok (naive_pow_mod M a e)
      ∧ naive_pow_mod M a e = a ^ e % M := by
  refine ⟨?_, naive_pow_mod_eq M a e⟩
  rw [find_modular_pow_adjust_modular M a e, naive_pow_mod_eq]
  simp only [Except.map]
  congr 1
  exact adjust_regular_adjust_modular ⟨M⟩ (a ^ e)

/-- Witness of C4: `M = 13`, `a = 4`, `e = 5` gives `1024 mod 13 = 10`, and `M = 97`,
`a = 5`, `e = 96` gives `1`. -/
theorem find_modular_pow_correct_witness :
    (((0 : Int) ≤ 4 ∧ (4 : Int) < 13) ∧ 1 ≤ 5 ∧
      ((find_modular_pow ⟨(⟨13⟩ : modular_params).adjust_modular 4, ⟨13⟩⟩ 5).map
          (fun r => r.m_mod.adjust_regular r.m_base) = .ok (naive_pow_mod 13 4 5)
        ∧ naive_pow_mod 13 4 5 = 4 ^ 5 % 13) ∧ naive_pow_mod 13 4 5 = 10) ∧
    (((0 : Int) ≤ 5 ∧ (5 : Int) < 97) ∧ 1 ≤ 96 ∧
      ((find_modular_pow ⟨(⟨97⟩ : modular_params).adjust_modular 5, ⟨97⟩⟩ 96).map
          (fun r => r.m_mod.adjust_regular r.m_base) = .ok (naive_pow_mod 97 5 96)
        ∧ naive_pow_mod 97 5 96 = 5 ^ 96 % 97) ∧ naive_pow_mod 97 5 96 = 1) :=
  ⟨⟨by decide, by decide, find_modular_pow_correct 13 4 5 (by decide) (by decide), by decide⟩,
   ⟨by decide, by decide, find_modular_pow_correct 97 5 96 (by decide) (by decide), by decide⟩⟩

/-- Lines 570-609 of `find_modular_pow` run on the exponent `0` with the top-bit index
`0` and the width `1`: the only digit is `0` and the result is the table entry `m_g[0]`,
the transformed `1`.  The lines after the call of `eval_msb` are sound at the exponent
zero. -/
theorem find_modular_pow_window_zero (x : modular_adaptor) :
    find_modular_pow_window 1 0 x 0 = .ok ⟨x.m_mod.adjust_modular 1, x.m_mod⟩ := by
  have h := find_modular_pow_window_represents _ x 1 0 0 (represents_adjust_regular x)
    (le_refl 1) (by decide) (by decide)
  rw [pow_zero] at h
  exact h

/-- On a non-zero exponent the call of `eval_msb` returns, and `find_modular_pow_checked`
is `find_modular_pow`. -/
theorem find_modular_pow_checked_of_pos (b : modular_adaptor) (e : Nat) (he : 1 ≤ e) :
    find_modular_pow_checked b e = find_modular_pow b e := by
  have h0 : e ≠ 0 := by omega
  simp [find_modular_pow_checked, eval_msb_checked, find_modular_pow, h0]

/-- C5 (exponent-zero law), the failing input: for every element `x`,
`find_modular_pow` called with the exponent `0` does not return the transformed `1`;
the call `eval_msb(exp)` at line 567 is made on zero, which has no set bit, and its
failure ends the call. -/
theorem find_modular_pow_zero_fails (x : modular_adaptor) :
    eval_msb_checked 0 = .error .no_bit_set ∧
    find_modular_pow_checked x 0 = .error .no_bit_set ∧
    find_modular_pow_checked x 0 ≠ .ok ⟨x.m_mod.adjust_modular 1, x.m_mod⟩ := by
  refine ⟨rfl, rfl, ?_⟩
  intro h
  have h1 : find_modular_pow_checked x 0 = .error .no_bit_set := rfl
  rw [h1] at h
  cases h

/-- C6 (exponent one): for every element `b` whose base lies in `[0, M)`,
`find_modular_pow b 1` returns `b` itself (same base, same modulus). -/
theorem find_modular_pow_one (b : modular_adaptor)
    (hb : 0 ≤ b.m_base ∧ b.m_base < b.m_mod.get_mod) : find_modular_pow b 1 = .ok b := by
  obtain ⟨base, ⟨M⟩⟩ := b
  simp only [modular_params.get_mod] at hb
  have h := find_modular_pow_adjust_modular M ((⟨M⟩ : modular_params).adjust_regular base) 1
  rw [pow_one, adjust_modular_adjust_regular ⟨M⟩ base hb] at h
  exact h

/-- Witness of C6: the element with base `12` over the modulus `13`. -/
theorem find_modular_pow_one_witness :
    ((0 : Int) ≤ 12 ∧ (12 : Int) < 13) ∧
      find_modular_pow ⟨12, ⟨13⟩⟩ 1 = .ok ⟨12, ⟨13⟩⟩ :=
  ⟨by decide, find_modular_pow_one ⟨12, ⟨13⟩⟩ (by decide)⟩

/-! ## Modulus checks and comparison -/

/-- C7 (mismatched modulus rejects): for elements `a` and `b` over different moduli,
`eval_add`, `eval_subtract`, `eval_multiply` and `compare` all fail with the
mismatched-modulus error. -/
theorem mismatched_modulus_rejects (a b : modular_adaptor)
    (h : a.m_mod.get_mod ≠ b.m_mod.get_mod) :
    eval_add a b = .error .mismatched_modulus ∧
    eval_subtract a b = .error .mismatched_modulus ∧
    eval_multiply a b = .error .mismatched_modulus ∧
    a.compare b = .error .mismatched_modulus := by
  refine ⟨?_, ?_, ?_, ?_⟩
  · unfold eval_add; rw [if_pos h]
  · unfold eval_subtract; rw [if_pos h]
  · unfold eval_multiply; rw [if_pos h]
  · simp only [modular_params.get_mod] at h
    have hne : a.m_mod.compare b.m_mod ≠ 0 := by
      unfold modular_params.compare
      by_cases hlt : a.m_mod.m_mod < b.m_mod.m_mod
      · rw [if_pos hlt]; decide
      · rw [if_neg hlt, if_neg h]; decide
    unfold modular_adaptor.compare
    rw [if_pos hne]

/-- Witness of C7: base `12` over the modulus `13` against base `3` over `7`. -/
theorem mismatched_modulus_rejects_witness :
    (13 : Int) ≠ 7 ∧
    (eval_add ⟨12, ⟨13⟩⟩ ⟨3, ⟨7⟩⟩ = .error .mismatched_modulus ∧
     eval_subtract ⟨12, ⟨13⟩⟩ ⟨3, ⟨7⟩⟩ = .error .mismatched_modulus ∧
     eval_multiply ⟨12, ⟨13⟩⟩ ⟨3, ⟨7⟩⟩ = .error .mismatched_modulus ∧
     modular_adaptor.compare ⟨12, ⟨13⟩⟩ ⟨3, ⟨7⟩⟩ = .error .mismatched_modulus) :=
  ⟨by decide, mismatched_modulus_rejects ⟨12, ⟨13⟩⟩ ⟨3, ⟨7⟩⟩ (by decide)⟩

/-- With the guard of `compare(const T&)` as written, a call that returns has compared a
canonical value below the modulus with a value above the modulus: the result is `-1`,
never `0` and never `1`. -/
theorem compare_val_only_less (a : modular_adaptor) (v c : Int)
    (ha : a.m_mod.adjust_regular a.m_base < a.m_mod.get_mod)
    (h : a.compare_val v = .ok c) : c = -1 := by
  unfold modular_adaptor.compare_val at h
  by_cases hlt : a.m_mod.get_mod < v
  · rw [if_neg (not_not.2 hlt)] at h
    have h1 : a.m_mod.adjust_regular a.m_base < v := lt_trans ha hlt
    simp only [backend_compare, if_pos h1] at h
    cases h
    rfl
  · rw [if_pos hlt] at h
    cases h

/-- C8 (compare against a plain value), the failing inputs: over the modulus `13`,
which is greater than the plain value `5`, `compare` of the element holding `4` fails
with the modulus-too-small error instead of returning `-1`; against the plain value
`20`, which is not below the modulus, it returns `-1` instead of failing; and against
its own canonical value `4` it fails instead of returning `0`. -/
theorem compare_val_guard_inverted :
    ((13 : Int) > 5 ∧
      modular_adaptor.compare_val ⟨(⟨13⟩ : modular_params).adjust_modular 4, ⟨13⟩⟩ 5
        = .error .modulus_too_small) ∧
    ((20 : Int) ≥ 13 ∧
      modular_adaptor.compare_val ⟨(⟨13⟩ : modular_params).adjust_modular 4, ⟨13⟩⟩ 20
        = .ok (-1)) ∧
    ((13 : Int) > 4 ∧
      (⟨13⟩ : modular_params).adjust_regular ((⟨13⟩ : modular_params).adjust_modular 4) = 4 ∧
      modular_adaptor.compare_val ⟨(⟨13⟩ : modular_params).adjust_modular 4, ⟨13⟩⟩ 4
        = .error .modulus_too_small) := by
  decide

/-- The three-way comparison is negative, zero or positive as its operands compare,
and swapping the operands negates it. -/
theorem backend_compare_sign (x y : Int) :
    (backend_compare x y < 0 ↔ x < y) ∧ (backend_compare x y = 0 ↔ x = y) ∧
    (0 < backend_compare x y ↔ y < x) ∧ backend_compare y x = - backend_compare x y := by
  unfold backend_compare
  rcases lt_trichotomy x y with h | h | h
  · have h1 : ¬ y < x := not_lt.2 (le_of_lt h)
    have h2 : ¬ y = x := fun e => (ne_of_lt h) e.symm
    have h3 : ¬ x = y := ne_of_lt h
    simp [h, h1, h2, h3]
  · subst h; simp
  · have h1 : ¬ x < y := not_lt.2 (le_of_lt h)
    have h2 : ¬ x = y := fun e => (ne_of_lt h) e.symm
    have h3 : ¬ y = x := ne_of_lt h
    simp [h, h1, h2, h3]

/-- C9 (comparison of two elements): for elements `a` and `b` with equal moduli,
`compare` succeeds and is negative, zero or positive exactly as the canonical value of
`a` is less than, equal to or greater than that of `b`; `compare a a` is `0`, and
`compare b a` is the negation of `compare a b`. -/
theorem compare_correct (a b : modular_adaptor) (h : a.m_mod.get_mod = b.m_mod.get_mod) :
    ∃ c d : Int, a.compare b = .ok c ∧ b.compare a = .ok d ∧
      (c < 0 ↔ a.m_mod.adjust_regular a.m_base < b.m_mod.adjust_regular b.m_base) ∧
      (c = 0 ↔ a.m_mod.adjust_regular a.m_base = b.m_mod.adjust_regular b.m_base) ∧
      (0 < c ↔ b.m_mod.adjust_regular b.m_base < a.m_mod.adjust_regular a.m_base) ∧
      d = - c ∧ a.compare a = .ok 0 := by
  obtain ⟨x, ⟨M⟩⟩ := a
  obtain ⟨y, ⟨N⟩⟩ := b
  simp only [modular_params.get_mod] at h
  subst h
  have hs := backend_compare_sign ((⟨M⟩ : modular_params).adjust_regular x)
    ((⟨M⟩ : modular_params).adjust_regular y)
  refine ⟨backend_compare ((⟨M⟩ : modular_params).adjust_regular x)
      ((⟨M⟩ : modular_params).adjust_regular y),
    backend_compare ((⟨M⟩ : modular_params).adjust_regular y)
      ((⟨M⟩ : modular_params).adjust_regular x), ?_, ?_, hs.1, hs.2.1, hs.2.2.1, hs.2.2.2, ?_⟩
  · simp [modular_adaptor.compare, modular_params.compare]
  · simp [modular_adaptor.compare, modular_params.compare]
  · simp [modular_adaptor.compare, modular_params.compare, backend_compare]

/-- Witness of C9: bases `12` and `4` over the modulus `13` (canonical values `4`
and `10`). -/
theorem compare_correct_witness :
    (13 : Int) = 13 ∧
    ∃ c d : Int, modular_adaptor.compare ⟨12, ⟨13⟩⟩ ⟨4, ⟨13⟩⟩ = .ok c ∧
      modular_adaptor.compare ⟨4, ⟨13⟩⟩ ⟨12, ⟨13⟩⟩ = .ok d ∧
      (c < 0 ↔ (⟨13⟩ : modular_params).adjust_regular 12
        < (⟨13⟩ : modular_params).adjust_regular 4) ∧
      (c = 0 ↔ (⟨13⟩ : modular_params).adjust_regular 12
        = (⟨13⟩ : modular_params).adjust_regular 4) ∧
      (0 < c ↔ (⟨13⟩ : modular_params).adjust_regular 4
        < (⟨13⟩ : modular_params).adjust_regular 12) ∧
      d = - c ∧ modular_adaptor.compare ⟨12, ⟨13⟩⟩ ⟨12, ⟨13⟩⟩ = .ok 0 :=
  ⟨rfl, compare_correct ⟨12, ⟨13⟩⟩ ⟨4, ⟨13⟩⟩ rfl⟩

/-! ## Construction -/

/-- The generic `assign_components` stores the transformed value, whose canonical value
is the argument reduced modulo the modulus. -/
theorem assign_components_base (x M : Int) :
    (assign_components x M).m_base = (⟨M⟩ : modular_params).adjust_modular x ∧
    (assign_components x M).m_mod.adjust_regular (assign_components x M).m_base = x % M :=
  ⟨rfl, adjust_regular_adjust_modular ⟨M⟩ x⟩

/-- C10 at the failing input: the variable-width constructor applied to the canonical
value `4` and the modulus `13` stores `4` unchanged, whereas the transformed
representation of `4` is `12` (which is what `assign_components` stores); the canonical
value of the stored base is `10`, not `4`. -/
theorem ctor_stores_value_unchanged :
    (modular_adaptor.ctor 4 13).m_base = 4 ∧
    (⟨13⟩ : modular_params).adjust_modular 4 = 12 ∧
    (assign_components 4 13).m_base = 12 ∧
    (modular_adaptor.ctor 4 13).m_mod.adjust_regular (modular_adaptor.ctor 4 13).m_base = 10 := by
  decide

/-! ## Conversion to a plain number -/

/-- C11 at the failing input: over the modulus `13`, the element holding the transformed
representation of `4` converts to `12`, by `eval_convert_to` and by the conversion
operator alike, and so does the fixed-precision element constructed from `(4, 13)`;
`str` on the same element formats the canonical value `4`. -/
theorem conversion_returns_transformed_base :
    eval_convert_to ⟨(⟨13⟩ : modular_params).adjust_modular 4, ⟨13⟩⟩ = 12 ∧
    modular_adaptor.to_number ⟨(⟨13⟩ : modular_params).adjust_modular 4, ⟨13⟩⟩ = 12 ∧
    (modular_adaptor_fixed.ctor 4 4 13).to_number = 12 ∧
    modular_adaptor.str_value ⟨(⟨13⟩ : modular_params).adjust_modular 4, ⟨13⟩⟩ = 4 := by
  decide

/-! ## Zero test and negation -/

/-- On a base in `[0, M)`, the zero test agrees with the canonical value being zero. -/
theorem eval_is_zero_of_range (a : modular_adaptor)
    (ha : 0 ≤ a.m_base ∧ a.m_base < a.m_mod.get_mod) :
    eval_is_zero a = true ↔ a.m_mod.adjust_regular a.m_base = 0 := by
  unfold eval_is_zero
  simp only [decide_eq_true_eq]
  constructor
  · intro h
    rw [h]
    unfold modular_params.adjust_regular
    simp
  · intro h
    have h1 := adjust_modular_adjust_regular a.m_mod a.m_base ha
    rw [h] at h1
    rw [← h1]
    unfold modular_params.adjust_modular
    simp

/-- C12 at the failing input: over the modulus `13`, the zero element (base `0`) is
negated to the base `13`; `eval_is_zero` of it is false although its canonical value
is `0`. -/
theorem eval_is_zero_negate_zero :
    (assign_components 0 13).m_base = 0 ∧
    (assign_components 0 13).negate.m_base = 13 ∧
    eval_is_zero (assign_components 0 13).negate = false ∧
    (assign_components 0 13).negate.m_mod.adjust_regular (assign_components 0 13).negate.m_base
      = 0 := by
  decide

/-- For a base strictly between `0` and `M`, `negate` stores the transformed
representation of the additive inverse. -/
theorem negate_base_of_pos (a : modular_adaptor)
    (ha : 0 < a.m_base ∧ a.m_base < a.m_mod.get_mod) :
    a.negate.m_base
      = a.m_mod.adjust_modular ((a.m_mod.get_mod - a.m_mod.adjust_regular a.m_base)
          % a.m_mod.get_mod) := by
  obtain ⟨x, ⟨M⟩⟩ := a
  simp only [modular_params.get_mod] at ha
  simp only [modular_adaptor.negate, modular_params.get_mod]
  have h1 := (represents_adjust_regular ⟨x, ⟨M⟩⟩).2
  simp only at h1
  have h2 : (M - (⟨M⟩ : modular_params).adjust_regular x) % M * (⟨M⟩ : modular_params).r
      ≡ (M - (⟨M⟩ : modular_params).adjust_regular x) * (⟨M⟩ : modular_params).r [ZMOD M] :=
    (Int.mod_modEq _ _).mul_right _
  have h3 : (M - (⟨M⟩ : modular_params).adjust_regular x) * (⟨M⟩ : modular_params).r
      ≡ -x + M [ZMOD M] := by
    have h4 : -((⟨M⟩ : modular_params).adjust_regular x * (⟨M⟩ : modular_params).r) ≡ -x [ZMOD M] :=
      h1.symm.neg
    have h5 : (M - (⟨M⟩ : modular_params).adjust_regular x) * (⟨M⟩ : modular_params).r
        ≡ -((⟨M⟩ : modular_params).adjust_regular x * (⟨M⟩ : modular_params).r) [ZMOD M] := by
      rw [Int.modEq_iff_dvd]
      exact ⟨-(⟨M⟩ : modular_params).r, by ring⟩
    have h6 : -x ≡ -x + M [ZMOD M] := by
      rw [Int.modEq_iff_dvd]
      exact ⟨1, by ring⟩
    exact (h5.trans h4).trans h6
  have h7 : ((M - (⟨M⟩ : modular_params).adjust_regular x) % M * (⟨M⟩ : modular_params).r) % M
      = (-x + M) % M := h2.trans h3
  unfold modular_params.adjust_modular
  simp only
  rw [h7, Int.emod_eq_of_lt (by omega) (by omega)]

/-- C13 at the failing input: over the modulus `13`, `negate` of the zero element has
base `13`, whereas the transformed representation of `(13 - 0) mod 13` is `0`. -/
theorem negate_zero_base :
    (assign_components 0 13).m_base = 0 ∧
    (assign_components 0 13).negate.m_base = 13 ∧
    (⟨13⟩ : modular_params).adjust_modular
      ((13 - (⟨13⟩ : modular_params).adjust_regular (assign_components 0 13).m_base) % 13) = 0 := by
  decide

/-! ## Range of the bases -/

/-- C14 (invariant I1 under the ring operations): if the bases of `a` and `b` lie in
`[0, M)` and the moduli are equal, then `eval_add`, `eval_subtract` and `eval_multiply`
succeed, keep the context, and return a base in `[0, M)`. -/
theorem ring_ops_preserve_range (a b : modular_adaptor)
    (h : a.m_mod.get_mod = b.m_mod.get_mod)
    (ha : 0 ≤ a.m_base ∧ a.m_base < a.m_mod.get_mod)
    (hb : 0 ≤ b.m_base ∧ b.m_base < b.m_mod.get_mod) :
    (∃ r, eval_add a b = .ok r ∧ r.m_mod = a.m_mod ∧
      0 ≤ r.m_base ∧ r.m_base < a.m_mod.get_mod) ∧
    (∃ r, eval_subtract a b = .ok r ∧ r.m_mod = a.m_mod ∧
      0 ≤ r.m_base ∧ r.m_base < a.m_mod.get_mod) ∧
    (∃ r, eval_multiply a b = .ok r ∧ r.m_mod = a.m_mod ∧
      0 ≤ r.m_base ∧ r.m_base < a.m_mod.get_mod) := by
  obtain ⟨x, ⟨M⟩⟩ := a
  obtain ⟨y, ⟨N⟩⟩ := b
  simp only [modular_params.get_mod] at h ha hb
  subst h
  have hM : 0 < M := lt_of_le_of_lt ha.1 ha.2
  refine ⟨?_, ?_, ?_⟩
  · unfold eval_add
    simp only [ne_eq, not_true_eq_false, if_false, modular_params.get_mod]
    split
    · exact ⟨_, rfl, rfl, by simp only; omega, by simp only; omega⟩
    · exact ⟨_, rfl, rfl, by simp only; omega, by simp only; omega⟩
  · unfold eval_subtract
    simp only [ne_eq, not_true_eq_false, if_false, modular_params.get_mod]
    split
    · exact ⟨_, rfl, rfl, by simp only; omega, by simp only; omega⟩
    · exact ⟨_, rfl, rfl, by simp only; omega, by simp only; omega⟩
  · unfold eval_multiply
    simp only [ne_eq, not_true_eq_false, if_false, modular_params.get_mod, eval_redc_eq]
    exact ⟨_, rfl, rfl, Int.emod_nonneg _ (ne_of_gt hM), Int.emod_lt_of_pos _ hM⟩

/-- Witness of C14: bases `12` and `4` over the modulus `13`. -/
theorem ring_ops_preserve_range_witness :
    (13 : Int) = 13 ∧ ((0 : Int) ≤ 12 ∧ (12 : Int) < 13) ∧ ((0 : Int) ≤ 4 ∧ (4 : Int) < 13) ∧
    ((∃ r, eval_add ⟨12, ⟨13⟩⟩ ⟨4, ⟨13⟩⟩ = .ok r ∧ r.m_mod = ⟨13⟩ ∧
      0 ≤ r.m_base ∧ r.m_base < 13) ∧
    (∃ r, eval_subtract ⟨12, ⟨13⟩⟩ ⟨4, ⟨13⟩⟩ = .ok r ∧ r.m_mod = ⟨13⟩ ∧
      0 ≤ r.m_base ∧ r.m_base < 13) ∧
    (∃ r, eval_multiply ⟨12, ⟨13⟩⟩ ⟨4, ⟨13⟩⟩ = .ok r ∧ r.m_mod = ⟨13⟩ ∧
      0 ≤ r.m_base ∧ r.m_base < 13)) :=
  ⟨rfl, by decide, by decide,
    ring_ops_preserve_range ⟨12, ⟨13⟩⟩ ⟨4, ⟨13⟩⟩ rfl (by decide) (by decide)⟩

/-! ## Division and remainder -/

/-- On a positive modulus the canonical value lies in `[0, M)`. -/
theorem adjust_regular_range (p : modular_params) (hM : 0 < p.m_mod) (t : Int) :
    0 ≤ p.adjust_regular t ∧ p.adjust_regular t < p.m_mod := by
  unfold modular_params.adjust_regular
  exact ⟨Int.emod_nonneg _ (ne_of_gt hM), Int.emod_lt_of_pos _ hM⟩

/-- C15 (divide and modulus are integer division on canonical values): for `a`, `b`
with equal positive modulus and non-zero canonical value of `b`, the canonical values
`q` of `eval_divide a b` and `r` of `eval_modulus a b` satisfy
`canonical a = q * canonical b + r` with `0 <= r < canonical b`. -/
theorem eval_divide_modulus_integer_division (a b : modular_adaptor)
    (h : a.m_mod.get_mod = b.m_mod.get_mod) (hM : 0 < a.m_mod.get_mod)
    (hb : b.m_mod.adjust_regular b.m_base ≠ 0) :
    ∃ q r : Int,
      (eval_divide a b).map (fun x => x.m_mod.adjust_regular x.m_base) = .ok q ∧
      (eval_modulus a b).map (fun x => x.m_mod.adjust_regular x.m_base) = .ok r ∧
      a.m_mod.adjust_regular a.m_base = q * b.m_mod.adjust_regular b.m_base + r ∧
      0 ≤ r ∧ r < b.m_mod.adjust_regular b.m_base := by
  obtain ⟨x, ⟨M⟩⟩ := a
  obtain ⟨y, ⟨N⟩⟩ := b
  simp only [modular_params.get_mod] at h hM hb
  subst h
  obtain ⟨hx0, hxM⟩ := adjust_regular_range ⟨M⟩ hM x
  obtain ⟨hy0, hyM⟩ := adjust_regular_range ⟨M⟩ hM y
  simp only at hx0 hxM hy0 hyM hb
  have hypos : 0 < (⟨M⟩ : modular_params).adjust_regular y := lt_of_le_of_ne hy0 (Ne.symm hb)
  have hq0 : 0 ≤ (⟨M⟩ : modular_params).adjust_regular x / (⟨M⟩ : modular_params).adjust_regular y :=
    Int.ediv_nonneg hx0 hy0
  have hqle := Int.ediv_le_self ((⟨M⟩ : modular_params).adjust_regular y) hx0
  have hr0 := Int.emod_nonneg ((⟨M⟩ : modular_params).adjust_regular x) hb
  have hrlt := Int.emod_lt_of_pos ((⟨M⟩ : modular_params).adjust_regular x) hypos
  refine ⟨(⟨M⟩ : modular_params).adjust_regular x / (⟨M⟩ : modular_params).adjust_regular y,
    (⟨M⟩ : modular_params).adjust_regular x % (⟨M⟩ : modular_params).adjust_regular y,
    ?_, ?_, ?_, hr0, hrlt⟩
  · unfold eval_divide backend_eval_divide
    simp only [ne_eq, not_true_eq_false, if_false, hb, Except.map, Int.tdiv_eq_ediv hx0 hy0]
    congr 1
    rw [adjust_regular_adjust_modular]
    exact Int.emod_eq_of_lt hq0 (by simp only; omega)
  · unfold eval_modulus backend_eval_modulus
    simp only [ne_eq, not_true_eq_false, if_false, hb, Except.map, Int.tmod_eq_emod hx0 hy0]
    congr 1
    rw [adjust_regular_adjust_modular]
    exact Int.emod_eq_of_lt hr0 (by simp only; omega)
  · have := Int.ediv_add_emod ((⟨M⟩ : modular_params).adjust_regular x)
      ((⟨M⟩ : modular_params).adjust_regular y)
    simp only
    rw [mul_comm]
    exact this.symm

/-- Witness of C15: bases `7` and `9` over the modulus `13` (canonical values `11`
and `3`). -/
theorem eval_divide_modulus_integer_division_witness :
    (13 : Int) = 13 ∧ (0 : Int) < 13 ∧ (⟨13⟩ : modular_params).adjust_regular 9 ≠ 0 ∧
    ∃ q r : Int,
      (eval_divide ⟨7, ⟨13⟩⟩ ⟨9, ⟨13⟩⟩).map (fun x => x.m_mod.adjust_regular x.m_base) = .ok q ∧
      (eval_modulus ⟨7, ⟨13⟩⟩ ⟨9, ⟨13⟩⟩).map (fun x => x.m_mod.adjust_regular x.m_base) = .ok r ∧
      (⟨13⟩ : modular_params).adjust_regular 7 = q * (⟨13⟩ : modular_params).adjust_regular 9 + r ∧
      0 ≤ r ∧ r < (⟨13⟩ : modular_params).adjust_regular 9 :=
  ⟨rfl, by decide, by decide,
    eval_divide_modulus_integer_division ⟨7, ⟨13⟩⟩ ⟨9, ⟨13⟩⟩ rfl (by decide) (by decide)⟩

/-! ## Window width -/

/-- C16 at the failing inputs: `window_bits` returns `1` at the bit lengths `16`, `17`,
`70`, `197`, `539` and `1434`. -/
theorem window_bits_at_breakpoints :
    window_bits 16 = 1 ∧ window_bits 17 = 1 ∧ window_bits 70 = 1 ∧ window_bits 197 = 1 ∧
    window_bits 539 = 1 ∧ window_bits 1434 = 1 := by
  decide

/-- C17 (window monotonicity and termination): for bit lengths `m <= n`,
`window_bits m <= window_bits n`; and on either input the threshold loop stops at its
first test, on the row it starts from. -/
theorem window_bits_monotone (m n : Nat) (_h : m ≤ n) :
    window_bits m ≤ window_bits n ∧
    window_bits_scan m (wsize_count - 1) = wsize_count - 1 ∧
    window_bits_scan n (wsize_count - 1) = wsize_count - 1 := by
  refine ⟨?_, ?_, ?_⟩
  · rw [window_bits_eq_one, window_bits_eq_one]
  · simp [window_bits_scan, wsize, wsize_count]
  · simp [window_bits_scan, wsize, wsize_count]

/-- Witness of C17: bit lengths `16` and `1434`. -/
theorem window_bits_monotone_witness :
    16 ≤ 1434 ∧ (window_bits 16 ≤ window_bits 1434 ∧
    window_bits_scan 16 (wsize_count - 1) = wsize_count - 1 ∧
    window_bits_scan 1434 (wsize_count - 1) = wsize_count - 1) :=
  ⟨by decide, window_bits_monotone 16 1434 (by decide)⟩

/-! ## The `eval_pow` overloads -/

/-- The statement-by-statement `eval_add` agrees with the functional one. -/
theorem eval_add_inplace_eq (s : CallState) :
    eval_add_inplace s = match eval_add s.result s.o with
      | .ok r => (none, ⟨r, s.o⟩)
      | .error e => (some e, s) := by
  unfold eval_add_inplace eval_add
  split <;> [rfl; (simp only; split <;> rfl)]

/-- The statement-by-statement `eval_subtract` agrees with the functional one. -/
theorem eval_subtract_inplace_eq (s : CallState) :
    eval_subtract_inplace s = match eval_subtract s.result s.o with
      | .ok r => (none, ⟨r, s.o⟩)
      | .error e => (some e, s) := by
  unfold eval_subtract_inplace eval_subtract
  split <;> [rfl; (simp only; split <;> rfl)]

/-- The statement-by-statement `eval_multiply` agrees with the functional one. -/
theorem eval_multiply_inplace_eq (s : CallState) :
    eval_multiply_inplace s = match eval_multiply s.result s.o with
      | .ok r => (none, ⟨r, s.o⟩)
      | .error e => (some e, s) := by
  unfold eval_multiply_inplace eval_multiply
  split <;> rfl

/-- The statement-by-statement `eval_divide` agrees with the functional one. -/
theorem eval_divide_inplace_eq (s : CallState) :
    eval_divide_inplace s = match eval_divide s.result s.o with
      | .ok r => (none, ⟨r, s.o⟩)
      | .error e => (some e, s) := by
  unfold eval_divide_inplace eval_divide
  split <;> [rfl; (simp only; split <;> rfl)]

/-- The statement-by-statement `eval_modulus` agrees with the functional one. -/
theorem eval_modulus_inplace_eq (s : CallState) :
    eval_modulus_inplace s = match eval_modulus s.result s.o with
      | .ok r => (none, ⟨r, s.o⟩)
      | .error e => (some e, s) := by
  unfold eval_modulus_inplace eval_modulus
  split <;> [rfl; (simp only; split <;> rfl)]

/-- C20 (failure is atomic): when the moduli of the two operands differ, `eval_add`,
`eval_subtract`, `eval_multiply`, `eval_divide`, `eval_modulus` and `compare` fail with
the mismatched-modulus error and both operands are as they were before the call. -/
theorem mismatched_modulus_failure_atomic (s : CallState)
    (h : s.result.m_mod.get_mod ≠ s.o.m_mod.get_mod) :
    eval_add_inplace s = (some .mismatched_modulus, s) ∧
    eval_subtract_inplace s = (some .mismatched_modulus, s) ∧
    eval_multiply_inplace s = (some .mismatched_modulus, s) ∧
    eval_divide_inplace s = (some .mismatched_modulus, s) ∧
    eval_modulus_inplace s = (some .mismatched_modulus, s) ∧
    compare_inplace s = (.error .mismatched_modulus, s) := by
  refine ⟨?_, ?_, ?_, ?_, ?_, ?_⟩
  · unfold eval_add_inplace; rw [if_pos h]
  · unfold eval_subtract_inplace; rw [if_pos h]
  · unfold eval_multiply_inplace; rw [if_pos h]
  · unfold eval_divide_inplace; rw [if_pos h]
  · unfold eval_modulus_inplace; rw [if_pos h]
  · simp only [modular_params.get_mod] at h
    have hne : s.result.m_mod.compare s.o.m_mod ≠ 0 := by
      unfold modular_params.compare
      by_cases hlt : s.result.m_mod.m_mod < s.o.m_mod.m_mod
      · rw [if_pos hlt]; decide
      · rw [if_neg hlt, if_neg h]; decide
    unfold compare_inplace modular_adaptor.compare
    rw [if_pos hne]

/-- Witness of C20: base `12` over the modulus `13` against base `3` over `7`. -/
theorem mismatched_modulus_failure_atomic_witness :
    (13 : Int) ≠ 7 ∧
    (eval_add_inplace ⟨⟨12, ⟨13⟩⟩, ⟨3, ⟨7⟩⟩⟩
        = (some .mismatched_modulus, ⟨⟨12, ⟨13⟩⟩, ⟨3, ⟨7⟩⟩⟩) ∧
    eval_subtract_inplace ⟨⟨12, ⟨13⟩⟩, ⟨3, ⟨7⟩⟩⟩
        = (some .mismatched_modulus, ⟨⟨12, ⟨13⟩⟩, ⟨3, ⟨7⟩⟩⟩) ∧
    eval_multiply_inplace ⟨⟨12, ⟨13⟩⟩, ⟨3, ⟨7⟩⟩⟩
        = (some .mismatched_modulus, ⟨⟨12, ⟨13⟩⟩, ⟨3, ⟨7⟩⟩⟩) ∧
    eval_divide_inplace ⟨⟨12, ⟨13⟩⟩, ⟨3, ⟨7⟩⟩⟩
        = (some .mismatched_modulus, ⟨⟨12, ⟨13⟩⟩, ⟨3, ⟨7⟩⟩⟩) ∧
    eval_modulus_inplace ⟨⟨12, ⟨13⟩⟩, ⟨3, ⟨7⟩⟩⟩
        = (some .mismatched_modulus, ⟨⟨12, ⟨13⟩⟩, ⟨3, ⟨7⟩⟩⟩) ∧
    compare_inplace ⟨⟨12, ⟨13⟩⟩, ⟨3, ⟨7⟩⟩⟩
        = (.error .mismatched_modulus, ⟨⟨12, ⟨13⟩⟩, ⟨3, ⟨7⟩⟩⟩)) :=
  ⟨by decide, mismatched_modulus_failure_atomic ⟨⟨12, ⟨13⟩⟩, ⟨3, ⟨7⟩⟩⟩ (by decide)⟩

/-! ## Bitwise operations and the moduli -/

/-- C21 at the failing input: for base `12` over the modulus `13` and base `3` over the
modulus `7`, `eval_bitwise_and`, `eval_bitwise_or` and `eval_bitwise_xor` return an
element over `13`, where `eval_add` on the same operands fails with the
mismatched-modulus error. -/
theorem bitwise_ops_accept_mismatched_moduli :
    (⟨12, ⟨13⟩⟩ : modular_adaptor).m_mod.get_mod ≠ (⟨3, ⟨7⟩⟩ : modular_adaptor).m_mod.get_mod ∧
    eval_bitwise_and ⟨12, ⟨13⟩⟩ ⟨3, ⟨7⟩⟩ = ⟨0, ⟨13⟩⟩ ∧
    eval_bitwise_or ⟨12, ⟨13⟩⟩ ⟨3, ⟨7⟩⟩ = ⟨2, ⟨13⟩⟩ ∧
    eval_bitwise_xor ⟨12, ⟨13⟩⟩ ⟨3, ⟨7⟩⟩ = ⟨2, ⟨13⟩⟩ ∧
    eval_add ⟨12, ⟨13⟩⟩ ⟨3, ⟨7⟩⟩ = .error .mismatched_modulus := by
  decide

/-! ## Field division -/

/-- C23 (field division is multiplication by the inverse): for all `a` and `b`,
`a / b` is `a * b.inversed()`, `a /= b` leaves `a / b` in `a`, and whenever
`b * b.inversed()` is `one`, `(a / b) * b` is `a`. -/
theorem element_fp_div_is_mul_inverse {D : Type} [CommMonoid D]
    (inverse_extended_euclidean_algorithm : D → D) (a b : element_fp D) :
    a.div inverse_extended_euclidean_algorithm b
      = a.mul (b.inversed inverse_extended_euclidean_algorithm) ∧
    a.div_assign inverse_extended_euclidean_algorithm b
      = a.div inverse_extended_euclidean_algorithm b ∧
    (b.mul (b.inversed inverse_extended_euclidean_algorithm) = element_fp.one →
      (a.div inverse_extended_euclidean_algorithm b).mul b = a) := by
  refine ⟨rfl, rfl, ?_⟩
  intro h
  obtain ⟨x⟩ := a
  obtain ⟨y⟩ := b
  simp only [element_fp.mul, element_fp.inversed, element_fp.one, element_fp.mk.injEq] at h
  simp only [element_fp.div, element_fp.mul, element_fp.inversed, element_fp.mk.injEq]
  rw [mul_assoc, mul_comm (inverse_extended_euclidean_algorithm y) y, h, mul_one]

/-- Witness of C23: in the integers modulo `13`, with the inverse computed as the
eleventh power, `a = 4` and `b = 10`. -/
theorem element_fp_div_is_mul_inverse_witness :
    (⟨10⟩ : element_fp (ZMod 13)).mul ((⟨10⟩ : element_fp (ZMod 13)).inversed (fun x => x ^ 11))
      = element_fp.one ∧
    ((⟨4⟩ : element_fp (ZMod 13)).div (fun x => x ^ 11) ⟨10⟩).mul ⟨10⟩ = ⟨4⟩ :=
  ⟨by decide, (element_fp_div_is_mul_inverse (fun x => x ^ 11) ⟨4⟩ ⟨10⟩).2.2 (by decide)⟩

/-! ## Strong and weak input consistency -/

/-- C24 (strong input consistency): the strong online verifier returns true exactly
when `pvk.query.size() == primary_input.size() + 1` and the weak online verifier returns
true on the same arguments; and it always returns a result. -/
theorem strong_input_consistency_iff {G1 G2 G1_precomp G2_precomp Fqk GT Fr : Type}
    (c : se_collaborators G1 G2 G1_precomp G2_precomp Fqk GT Fr)
    (pvk : se_processed_verification_key G1 G2 G1_precomp G2_precomp Fqk)
    (primary_input : List Fr) (proof : se_proof G1 G2) :
    (r1cs_se_ppzksnark_online_verifier_strong_input_consistency_process c pvk primary_input proof
        = .ok true ↔
      (pvk.query.length = primary_input.length + 1 ∧
        r1cs_se_ppzksnark_online_verifier_weak_input_consistency_process c pvk primary_input proof
          = .ok true)) ∧
    (∃ result, r1cs_se_ppzksnark_online_verifier_strong_input_consistency_process c pvk
        primary_input proof = .ok result) := by
  unfold r1cs_se_ppzksnark_online_verifier_strong_input_consistency_process
  by_cases h : pvk.query.length = primary_input.length + 1
  · rw [if_neg (not_not.2 h)]
    refine ⟨⟨fun hw => ⟨h, hw⟩, fun hw => hw.2⟩, ?_⟩
    unfold r1cs_se_ppzksnark_online_verifier_weak_input_consistency_process
    cases hq : pvk.query with
    | nil => rw [hq] at h; simp at h
    | cons q0 rest => exact ⟨_, rfl⟩
  · rw [if_pos h]
    exact ⟨⟨fun e => (by cases e), fun hw => absurd hw.1 h⟩, ⟨false, rfl⟩⟩

/-! ## Round trip of the placeholder proof marshalling -/

/-- The filling loop appends the image of the list. -/
theorem fill_lookups_loop_eq {Q LM : Type} (f : Q → LM) :
    ∀ (l : List Q) (acc : List LM), fill_lookups_loop f l acc = acc ++ l.map f := by
  intro l
  induction l with
  | nil => intro acc; simp [fill_lookups_loop]
  | cons p rest ih => intro acc; simp [fill_lookups_loop, ih]

/-- The making loop appends the image of the entries from index `i` on. -/
theorem make_lookups_loop_eq {Q LM : Type} (g : LM → Q) (filled : List LM) :
    ∀ (count i : Nat) (acc : List Q), i + count = filled.length →
      make_lookups_loop g filled count i acc = .ok (acc ++ (filled.drop i).map g) := by
  intro count
  induction count with
  | zero =>
    intro i acc h
    have : filled.drop i = [] := List.drop_eq_nil_of_le (by omega)
    simp [make_lookups_loop, this]
  | succ count ih =>
    intro i acc h
    have hi : i < filled.length := by omega
    unfold make_lookups_loop
    rw [List.get?_eq_get hi]
    simp only
    rw [ih (i + 1) _ (by omega)]
    have hd : filled.drop i = filled.get ⟨i, hi⟩ :: filled.drop (i + 1) :=
      List.drop_eq_getElem_cons hi
    rw [hd, List.map_cons, List.append_assoc, List.singleton_append]

/-- C25 (marshalling round trip): when every component `make` inverts its `fill`,
`make_placeholder_proof` of `fill_placeholder_proof p` succeeds and returns `p`: the six
commitments, `challenge`, `lagrange_0`, `combined_value` and the list `lookups`. -/
theorem placeholder_proof_round_trip {CV CP CR F R Q MV MP MR FM LM : Type}
    (m : placeholder_marshallers CV CP CR F R Q MV MP MR FM LM)
    (p : placeholder_proof_value CV CP CR F R Q)
    (hv : ∀ x, m.make_merkle_node_value_v (m.fill_merkle_node_value_v x) = x)
    (hp : ∀ x, m.make_merkle_node_value_p (m.fill_merkle_node_value_p x) = x)
    (hr : ∀ x, m.make_merkle_node_value_r (m.fill_merkle_node_value_r x) = x)
    (hf : ∀ x, m.field_element_value (m.field_element x) = x)
    (hlr : ∀ x, m.make_lpc_proof_r (m.fill_lpc_proof_r x) = x)
    (hlq : ∀ x, m.make_lpc_proof_q (m.fill_lpc_proof_q x) = x) :
    make_placeholder_proof m (fill_placeholder_proof m p) = .ok p := by
  obtain ⟨c0, c1, c2, c3, c4, c5, ⟨ch, l0, cv, lk⟩⟩ := p
  have hmap : (lk.map m.fill_lpc_proof_q).map m.make_lpc_proof_q = lk := by
    rw [List.map_map]
    have : m.make_lpc_proof_q ∘ m.fill_lpc_proof_q = id := funext hlq
    rw [this, List.map_id]
  simp only [make_placeholder_proof, fill_placeholder_proof, make_placeholder_evaluation_proof,
    fill_placeholder_evaluation_proof, fill_lookups_loop_eq, List.nil_append]
  rw [make_lookups_loop_eq m.make_lpc_proof_q _ _ 0 [] (by simp)]
  simp only [List.drop_zero, List.nil_append, hmap, hv, hp, hr, hf, hlr]

/-- Witness of C25: the marshallers that add and subtract one, on a proof with three
lookups. -/
theorem placeholder_proof_round_trip_witness :
    (∀ x, shift_marshallers.make_merkle_node_value_v (shift_marshallers.fill_merkle_node_value_v x) = x) ∧
    (∀ x, shift_marshallers.make_lpc_proof_q (shift_marshallers.fill_lpc_proof_q x) = x) ∧
    fill_placeholder_proof shift_marshallers sample_placeholder_proof
      = ⟨2, 3, 4, 5, 6, 7, ⟨8, 9, 10, [11, 12, 13]⟩⟩ ∧
    make_placeholder_proof shift_marshallers
        (fill_placeholder_proof shift_marshallers sample_placeholder_proof)
      = .ok sample_placeholder_proof :=
  ⟨fun x => Nat.add_sub_cancel x 1, fun x => Nat.add_sub_cancel x 1, rfl,
    placeholder_proof_round_trip shift_marshallers sample_placeholder_proof
      (fun x => Nat.add_sub_cancel x 1) (fun x => Nat.add_sub_cancel x 1) (fun x => Nat.add_sub_cancel x 1)
      (fun x => Nat.add_sub_cancel x 1) (fun x => Nat.add_sub_cancel x 1) (fun x => Nat.add_sub_cancel x 1)⟩

/-! ## Fixed-window exponentiation for the widths of a 32-bit table size -/

/-- Counterexample to C26 as stated: at the window width `32`, base `12` over the modulus
`13` and exponent `5`, the table size `1U << 32` is a shift of a 32-bit `unsigned` by
its full width, which has no defined result, so the procedure returns no power. -/
theorem fixed_window_pow_counterexample :
    1 ≤ 32 ∧ 1 ≤ 5 ∧
    unsigned_one_shift_left 32 = .error .undefined_shift ∧
    find_modular_pow_window 32 (eval_msb 5) ⟨12, ⟨13⟩⟩ 5 = .error .undefined_shift := by
  decide

/-- C26 as amended (fixed-window exponentiation for every width below 32): for every
window width `w` with `1 <= w <= 31`, every element `b` and every exponent `e >= 1`,
lines 570-609 of `find_modular_pow` run with the width `w` succeed and return an element
whose canonical value is the canonical value of `b` to the power `e` modulo `M`, the
value of the square-and-multiply reference. -/
theorem fixed_window_pow_correct (w : Nat) (b : modular_adaptor) (e : Nat)
    (hw : 1 ≤ w) (hw32 : w ≤ 31) (_he : 1 ≤ e) :
    (find_modular_pow_window w (eval_msb e) b e).map (fun r => r.m_mod.adjust_regular r.m_base)
      = .ok ((b.m_mod.adjust_regular b.m_base) ^ e % b.m_mod.get_mod) ∧
    (b.m_mod.adjust_regular b.m_base) ^ e % b.m_mod.get_mod
      = naive_pow_mod b.m_mod.get_mod (b.m_mod.adjust_regular b.m_base) e := by
  refine ⟨?_, (naive_pow_mod_eq _ _ _).symm⟩
  rw [find_modular_pow_window_represents _ b w (eval_msb e) e (represents_adjust_regular b) hw
    (Nat.lt_succ_of_le hw32) (lt_two_pow_eval_msb_succ e)]
  simp only [Except.map]
  congr 1
  exact adjust_regular_adjust_modular b.m_mod _

/-- Witness of C26 as amended: width `2`, base `12` over the modulus `13` (canonical
value `4`), exponent `5`. -/
theorem fixed_window_pow_correct_witness :
    1 ≤ 2 ∧ 2 ≤ 31 ∧ 1 ≤ 5 ∧
    ((find_modular_pow_window 2 (eval_msb 5) ⟨12, ⟨13⟩⟩ 5).map
        (fun r => r.m_mod.adjust_regular r.m_base) = .ok 10 ∧
    (10 : Int) = naive_pow_mod 13 4 5) :=
  ⟨by decide, by decide, by decide,
    fixed_window_pow_correct 2 ⟨12, ⟨13⟩⟩ 5 (by decide) (by decide) (by decide)⟩

/-! ## Number of digits of the exponent -/

/-- The digit loop pushes one digit per iteration. -/
theorem pow_exp_index_length (w mask : Nat) :
    ∀ (n e : Nat), (pow_exp_index w mask n e).length = n := by
  intro n
  induction n with
  | zero => intro e; rfl
  | succ n ih => intro e; simp [pow_exp_index, ih]

/-- Counterexample to C27 as stated: the exponent `1` has bit length `1` and the window
width chosen is `1`; it is split into one digit, whereas `ceil((1 + 1) / 1)` is `2`. -/
theorem exp_index_count_counterexample :
    bit_length 1 = 1 ∧ window_bits (eval_msb 1 + 1) = 1 ∧
    (find_modular_pow_exp_index 1).length = 1 ∧
    ceil_div (bit_length 1 + 1) (window_bits (eval_msb 1 + 1)) = 2 := by
  decide

/-- C27 as amended: the number of digits the exponent is split into is
`ceil((exp_bits + 1) / w)`, where `exp_bits` is the value of `eval_msb`, the index of the
most significant set bit (the bit length minus one), and `w` the chosen window width. -/
theorem exp_index_count (exp : Nat) :
    (find_modular_pow_exp_index exp).length
      = ceil_div (eval_msb exp + 1) (window_bits (eval_msb exp + 1)) ∧
    eval_msb exp = bit_length exp - 1 := by
  refine ⟨?_, rfl⟩
  unfold find_modular_pow_exp_index
  simp only [pow_exp_index_length]
  rfl

/-! ## Bitwise and shift operations on canonical values -/

/-- On a positive modulus the canonical value is a natural number below the modulus. -/
theorem canonical_cases (p : modular_params) (hM : 0 < p.m_mod) (t : Int) :
    ∃ m : Nat, p.adjust_regular t = (m : Int) ∧ (m : Int) < p.m_mod := by
  obtain ⟨h0, h1⟩ := adjust_regular_range p hM t
  refine ⟨(p.adjust_regular t).toNat, ?_, ?_⟩
  · exact (Int.toNat_of_nonneg h0).symm
  · rw [Int.toNat_of_nonneg h0]; exact h1

/-- A value in `[0, M)` survives the round trip through the transformed representation. -/
theorem adjust_regular_adjust_modular_of_range (p : modular_params) (r : Int)
    (h0 : 0 ≤ r) (h1 : r < p.m_mod) : p.adjust_regular (p.adjust_modular r) = r := by
  rw [adjust_regular_adjust_modular]
  exact Int.emod_eq_of_lt h0 h1

/-- C28 (bitwise and shift operations act on canonical values): for `a` and `b` over
the same positive modulus `M`, the canonical value of `eval_bitwise_and a b` is the
`and` of the canonical values, which is at most their minimum; that of
`eval_bitwise_or`, `eval_bitwise_xor` and `eval_left_shift` is the raw result whenever
this is below `M`; and that of `eval_right_shift a i` is the canonical value of `a`
divided by `2 ^ i`, rounded down. -/
theorem bitwise_shift_on_canonical (a b : modular_adaptor) (i : Nat)
    (h : a.m_mod.get_mod = b.m_mod.get_mod) (hM : 0 < a.m_mod.get_mod) :
    ((eval_bitwise_and a b).m_mod.adjust_regular (eval_bitwise_and a b).m_base
        = Int.land (a.m_mod.adjust_regular a.m_base) (b.m_mod.adjust_regular b.m_base) ∧
      Int.land (a.m_mod.adjust_regular a.m_base) (b.m_mod.adjust_regular b.m_base)
        ≤ min (a.m_mod.adjust_regular a.m_base) (b.m_mod.adjust_regular b.m_base)) ∧
    (Int.lor (a.m_mod.adjust_regular a.m_base) (b.m_mod.adjust_regular b.m_base)
        < a.m_mod.get_mod →
      (eval_bitwise_or a b).m_mod.adjust_regular (eval_bitwise_or a b).m_base
        = Int.lor (a.m_mod.adjust_regular a.m_base) (b.m_mod.adjust_regular b.m_base)) ∧
    (Int.xor (a.m_mod.adjust_regular a.m_base) (b.m_mod.adjust_regular b.m_base)
        < a.m_mod.get_mod →
      (eval_bitwise_xor a b).m_mod.adjust_regular (eval_bitwise_xor a b).m_base
        = Int.xor (a.m_mod.adjust_regular a.m_base) (b.m_mod.adjust_regular b.m_base)) ∧
    (a.m_mod.adjust_regular a.m_base * 2 ^ i < a.m_mod.get_mod →
      (eval_left_shift a i).m_mod.adjust_regular (eval_left_shift a i).m_base
        = a.m_mod.adjust_regular a.m_base * 2 ^ i) ∧
    (eval_right_shift a i).m_mod.adjust_regular (eval_right_shift a i).m_base
        = a.m_mod.adjust_regular a.m_base / 2 ^ i := by
  obtain ⟨x, ⟨M⟩⟩ := a
  obtain ⟨y, ⟨N⟩⟩ := b
  simp only [modular_params.get_mod] at h hM
  subst h
  obtain ⟨m, hm, hmM⟩ := canonical_cases ⟨M⟩ hM x
  obtain ⟨n, hn, hnM⟩ := canonical_cases ⟨M⟩ hM y
  simp only at hmM hnM
  simp only [eval_bitwise_and, eval_bitwise_or, eval_bitwise_xor, eval_left_shift,
    eval_left_shift_tmp, eval_right_shift, backend_bitwise_and, backend_bitwise_or,
    backend_bitwise_xor, backend_left_shift, backend_right_shift, modular_params.get_mod,
    hm, hn]
  have hland : Int.land (m : Int) (n : Int) = ((m &&& n : Nat) : Int) := rfl
  have hlor : Int.lor (m : Int) (n : Int) = ((m ||| n : Nat) : Int) := rfl
  have hxor : Int.xor (m : Int) (n : Int) = ((m ^^^ n : Nat) : Int) := rfl
  have hle1 : m &&& n ≤ m := Nat.and_le_left
  have hle2 : m &&& n ≤ n := Nat.and_le_right
  refine ⟨⟨?_, ?_⟩, ?_, ?_, ?_, ?_⟩
  · rw [hland]
    exact adjust_regular_adjust_modular_of_range ⟨M⟩ _ (Int.ofNat_nonneg _) (by simp only; omega)
  · rw [hland]
    apply le_min <;> omega
  · intro hlt
    rw [hlor] at hlt ⊢
    exact adjust_regular_adjust_modular_of_range ⟨M⟩ _ (Int.ofNat_nonneg _) hlt
  · intro hlt
    rw [hxor] at hlt ⊢
    exact adjust_regular_adjust_modular_of_range ⟨M⟩ _ (Int.ofNat_nonneg _) hlt
  · intro hlt
    exact adjust_regular_adjust_modular_of_range ⟨M⟩ _
      (mul_nonneg (Int.ofNat_nonneg _) (by positivity)) hlt
  · have h2 : (0 : Int) ≤ (m : Int) / 2 ^ i := Int.ediv_nonneg (Int.ofNat_nonneg _) (by positivity)
    have h3 : (m : Int) / 2 ^ i ≤ m := Int.ediv_le_self _ (Int.ofNat_nonneg _)
    exact adjust_regular_adjust_modular_of_range ⟨M⟩ _ h2 (by simp only; omega)

/-- Witness of C28: bases `12` and `4` over the modulus `13` (canonical values `4` and
`10`), shift count `1`. -/
theorem bitwise_shift_on_canonical_witness :
    (13 : Int) = 13 ∧ (0 : Int) < 13 ∧
    (eval_bitwise_and ⟨12, ⟨13⟩⟩ ⟨4, ⟨13⟩⟩).m_mod.adjust_regular
        (eval_bitwise_and ⟨12, ⟨13⟩⟩ ⟨4, ⟨13⟩⟩).m_base = Int.land 4 10 ∧
    (eval_left_shift ⟨12, ⟨13⟩⟩ 1).m_mod.adjust_regular (eval_left_shift ⟨12, ⟨13⟩⟩ 1).m_base = 8 ∧
    (eval_right_shift ⟨12, ⟨13⟩⟩ 1).m_mod.adjust_regular (eval_right_shift ⟨12, ⟨13⟩⟩ 1).m_base = 2 :=
  ⟨rfl, by decide,
    (bitwise_shift_on_canonical ⟨12, ⟨13⟩⟩ ⟨4, ⟨13⟩⟩ 1 rfl (by decide)).1.1,
    (bitwise_shift_on_canonical ⟨12, ⟨13⟩⟩ ⟨4, ⟨13⟩⟩ 1 rfl (by decide)).2.2.2.1 (by decide),
    (bitwise_shift_on_canonical ⟨12, ⟨13⟩⟩ ⟨4, ⟨13⟩⟩ 1 rfl (by decide)).2.2.2.2⟩

/-- C29 (left shift is not re-validated): there are a modulus `M`, an element `a` with
canonical value in `[0, M)` and a shift count `i` for which the value that
`eval_left_shift` hands to `adjust_modular` is the canonical value times `2 ^ i` and is
at least `M`. -/
theorem left_shift_leaves_range :
    ∃ (M : Int) (a : modular_adaptor) (i : Nat),
      a.m_mod.get_mod = M ∧
      0 ≤ a.m_mod.adjust_regular a.m_base ∧ a.m_mod.adjust_regular a.m_base < M ∧
      eval_left_shift_tmp a i = a.m_mod.adjust_regular a.m_base * 2 ^ i ∧
      M ≤ eval_left_shift_tmp a i ∧
      eval_left_shift a i = ⟨a.m_mod.adjust_modular (eval_left_shift_tmp a i), a.m_mod⟩ :=
  ⟨13, ⟨4, ⟨13⟩⟩, 1, by decide⟩

/-! ## Subtraction in the fixed-precision specialisation -/

/-- When the first base is not below the second, the fixed-precision subtraction
returns their difference. -/
theorem eval_subtract_fixed_of_le (MinBits : Nat) (a b : modular_adaptor_fixed MinBits)
    (h : a.m_mod.get_mod = b.m_mod.get_mod) (hfit : a.m_mod.get_mod < 2 ^ MinBits)
    (ha : (a.m_base : Int) < a.m_mod.get_mod) (hba : b.m_base ≤ a.m_base) :
    eval_subtract_fixed a b = .ok ⟨a.m_base - b.m_base, a.m_mod⟩ := by
  unfold eval_subtract_fixed
  rw [if_neg (not_not.2 h)]
  simp only [Nat.not_lt_zero, if_false]
  congr 2
  have h1 : (0 : Int) ≤ (a.m_base : Int) - (b.m_base : Int) ∧
      (a.m_base : Int) - (b.m_base : Int) < a.m_mod.get_mod := by omega
  have h2 := doubled_limbs_of_range MinBits _ _ h1 hfit
  omega

/-- C30 at the failing input: in `4` bits over the modulus `13`, with bases `4` and
`12` in `[0, 13)`, the fixed-precision `eval_subtract` returns the base `248`, outside
`[0, 13)` and not congruent to `(4 - 12) mod 13 = 5`; the variable-width `eval_subtract`
returns `5`. -/
theorem eval_subtract_fixed_wraps :
    (4 : Int) < 13 ∧ (12 : Int) < 13 ∧ (13 : Int) < 2 ^ 4 ∧
    eval_subtract_fixed (⟨4, ⟨13⟩⟩ : modular_adaptor_fixed 4) ⟨12, ⟨13⟩⟩ = .ok ⟨248, ⟨13⟩⟩ ∧
    ((4 : Int) - 12) % 13 = 5 ∧ (248 : Int) % 13 = 1 ∧
    eval_subtract ⟨4, ⟨13⟩⟩ ⟨12, ⟨13⟩⟩ = .ok ⟨5, ⟨13⟩⟩ := by
  decide

/-! ## Claims C31 to C40 -/

theorem isqrt_loop_spec (n : Nat) :
    ∀ r : Nat, isqrt_loop n r * isqrt_loop n r ≤ n ∧ isqrt_loop n r ≤ r ∧
      ∀ k, k ≤ r → k * k ≤ n → k ≤ isqrt_loop n r := by
  intro r
  induction r with
  | zero =>
    refine ⟨by simp [isqrt_loop], by simp [isqrt_loop], ?_⟩
    intro k hk _
    simpa [isqrt_loop] using hk
  | succ r ih =>
    obtain ⟨h1, h2, h3⟩ := ih
    unfold isqrt_loop
    by_cases h : (r + 1) * (r + 1) ≤ n
    · rw [if_pos h]
      exact ⟨h, le_refl _, fun k hk _ => hk⟩
    · rw [if_neg h]
      refine ⟨h1, Nat.le_succ_of_le h2, ?_⟩
      intro k hk hkn
      rcases Nat.lt_or_ge k (r + 1) with hlt | hge
      · exact h3 k (Nat.lt_succ_iff.1 hlt) hkn
      · have : k = r + 1 := le_antisymm hk hge
        subst this
        exact absurd hkn h

theorem isqrt_spec (n : Nat) : isqrt n * isqrt n ≤ n ∧ n < (isqrt n + 1) * (isqrt n + 1) := by
  obtain ⟨h1, h2, h3⟩ := isqrt_loop_spec n n
  refine ⟨h1, ?_⟩
  by_contra hcon
  have hle : (isqrt n + 1) * (isqrt n + 1) ≤ n := not_lt.1 hcon
  have hk : isqrt n + 1 ≤ n := by
    calc isqrt n + 1 ≤ (isqrt n + 1) * (isqrt n + 1) := Nat.le_mul_self _
      _ ≤ n := hle
  have := h3 (isqrt n + 1) hk hle
  unfold isqrt at this
  omega

/-- C31 (square root on the raw base): `eval_sqrt result val` stores in the base of
`result` the integer square root `r` of the base of `val` itself, the greatest `r` with
`r * r <= val.base`, and leaves the context of `result` as it was; neither
`adjust_regular` nor `adjust_modular` is applied. -/
theorem eval_sqrt_raw_base (result val : modular_adaptor) :
    (eval_sqrt result val).m_base = (isqrt val.m_base.toNat : Nat) ∧
    (eval_sqrt result val).m_mod = result.m_mod ∧
    isqrt val.m_base.toNat * isqrt val.m_base.toNat ≤ val.m_base.toNat ∧
    val.m_base.toNat < (isqrt val.m_base.toNat + 1) * (isqrt val.m_base.toNat + 1) :=
  ⟨rfl, rfl, isqrt_spec _⟩

/-- C33 (the window is always one bit): `window_bits n` is `1` for every `n`; the table
that `find_modular_pow` builds for a base `b` and an exponent `exp` has exactly the two
entries one (transformed) and `b`, and the exponent is split into its
`eval_msb exp + 1` binary digits, digit `i` being bit `i` of `exp`. -/
theorem window_bits_one_bit_at_a_time (n : Nat) (b : modular_adaptor) (exp : Nat) :
    window_bits n = 1 ∧
    pow_table (window_bits (eval_msb exp + 1)) (assign_components 1 b.m_mod.get_mod) b
      = .ok [assign_components 1 b.m_mod.get_mod, b] ∧
    (find_modular_pow_exp_index exp).length = eval_msb exp + 1 ∧
    ∀ i, i < eval_msb exp + 1 →
      (find_modular_pow_exp_index exp).get? i = some (exp / 2 ^ i % 2) := by
  refine ⟨window_bits_eq_one n, ?_, ?_, ?_⟩
  · rw [window_bits_eq_one]
    rfl
  · unfold find_modular_pow_exp_index
    simp only [window_bits_eq_one, pow_exp_index_length, pow_exp_nibbles]
    simp
  · intro i hi
    unfold find_modular_pow_exp_index
    simp only [window_bits_eq_one]
    have hn : pow_exp_nibbles 1 (eval_msb exp) = eval_msb exp + 1 := by
      simp [pow_exp_nibbles]
    rw [hn]
    have := pow_exp_index_spec 1 (eval_msb exp + 1) exp i hi
    simpa using this

/-- Witness of C33: the exponent `5`, whose digit `2` is bit `2`. -/
theorem window_bits_one_bit_at_a_time_witness :
    2 < eval_msb 5 + 1 ∧ (find_modular_pow_exp_index 5).get? 2 = some (5 / 2 ^ 2 % 2) :=
  ⟨by decide, (window_bits_one_bit_at_a_time 0 (assign_components 2 13) 5).2.2.2 2 (by decide)⟩

theorem exp_by_z_eq_zpow {G : Type} [CommGroup G] (c : final_exponentiation_collaborators G)
    (hinv : ∀ x, c.unitary_inversed x = x⁻¹)
    (hexp : ∀ x n, c.cyclotomic_exp x n = x ^ n) (x : G) :
    exp_by_z c x = x ^ final_exponent_z_signed c := by
  unfold exp_by_z final_exponent_z_signed
  cases c.final_exponent_is_z_neg with
  | false => simp [hexp]
  | true => simp [hexp, hinv]

/-- C32 (last chunk of the final exponentiation): in a commutative group where
`cyclotomic_squared x = x ^ 2`, `unitary_inversed x = x⁻¹`, `cyclotomic_exp x n = x ^ n`
(so that `exp_by_z x = x ^ z` for the signed parameter `z`) and
`Frobenius_map x k = x ^ (q ^ k)`, `final_exponentiation_last_chunk elt` is the product
`(elt^(z^2-2z) * elt)^(q^3) * (elt^(z^3-2z^2) * elt^z)^(q^2) *
(elt^(z^4-2z^3+2z) * elt^(-1))^q * elt^(z^5-2z^4+2z^2) * elt^(-z+2) * elt`, which is
`elt` raised to `(z-1)^2 * (z+q) * (z^2+q^2-1) + 3`. -/
theorem final_exponentiation_last_chunk_exponent {G : Type} [CommGroup G]
    (c : final_exponentiation_collaborators G) (q : Nat)
    (hsq : ∀ x, c.cyclotomic_squared x = x ^ 2)
    (hinv : ∀ x, c.unitary_inversed x = x⁻¹)
    (hexp : ∀ x n, c.cyclotomic_exp x n = x ^ n)
    (hfrob : ∀ x k, c.Frobenius_map x k = x ^ (q ^ k)) (elt : G) :
    (∀ x, exp_by_z c x = x ^ final_exponent_z_signed c) ∧
    final_exponentiation_last_chunk c elt
      = (elt ^ (final_exponent_z_signed c ^ 2 - 2 * final_exponent_z_signed c) * elt) ^ (q ^ 3)
        * (elt ^ (final_exponent_z_signed c ^ 3 - 2 * final_exponent_z_signed c ^ 2)
            * elt ^ final_exponent_z_signed c) ^ (q ^ 2)
        * (elt ^ (final_exponent_z_signed c ^ 4 - 2 * final_exponent_z_signed c ^ 3
              + 2 * final_exponent_z_signed c) * elt ^ (-1 : Int)) ^ q
        * elt ^ (final_exponent_z_signed c ^ 5 - 2 * final_exponent_z_signed c ^ 4
              + 2 * final_exponent_z_signed c ^ 2)
        * elt ^ (- final_exponent_z_signed c + 2) * elt ∧
    final_exponentiation_last_chunk c elt
      = elt ^ ((final_exponent_z_signed c - 1) ^ 2 * (final_exponent_z_signed c + q)
          * (final_exponent_z_signed c ^ 2 + (q : Int) ^ 2 - 1) + 3) := by
  have hz := exp_by_z_eq_zpow c hinv hexp
  generalize final_exponent_z_signed c = z at hz ⊢
  obtain ⟨g, hg1, hgmul, hgpow, hgzpow, hginv, hg⟩ :
      ∃ g : Int → G, elt = g 1 ∧ (∀ a b, g a * g b = g (a + b)) ∧
        (∀ a (n : Nat), g a ^ n = g (a * n)) ∧ (∀ a (n : Int), g a ^ n = g (a * n)) ∧
        (∀ a, (g a)⁻¹ = g (-a)) ∧ (∀ a, elt ^ a = g a) :=
    ⟨fun e => elt ^ e, (zpow_one elt).symm, fun a b => (zpow_add elt a b).symm,
      fun a n => by rw [← zpow_natCast, ← zpow_mul],
      fun a n => (zpow_mul elt a n).symm, fun a => (zpow_neg elt a).symm, fun _ => rfl⟩
  have hchunk : final_exponentiation_last_chunk c elt
      = elt ^ ((z - 1) ^ 2 * (z + q) * (z ^ 2 + (q : Int) ^ 2 - 1) + 3) := by
    unfold final_exponentiation_last_chunk
    simp only [hz, hsq, hinv, hfrob]
    rw [hg]
    rw [hg1]
    simp only [hgmul, hgpow, hgzpow, hginv]
    congr 1
    push_cast
    ring
  refine ⟨hz, ?_, hchunk⟩
  rw [hchunk]
  simp only [hg]
  rw [hg1]
  simp only [hgmul, hgpow, hgzpow, hginv]
  congr 1
  push_cast
  ring

/-- Witness of C32: the integers written multiplicatively, `z = -3`, `q = 5`, and the
generator as `elt`. -/
theorem final_exponentiation_last_chunk_exponent_witness :
    final_exponentiation_last_chunk sample_final_exponentiation_collaborators
        (Multiplicative.ofAdd (1 : Int))
      = Multiplicative.ofAdd (1 : Int)
          ^ ((final_exponent_z_signed sample_final_exponentiation_collaborators - 1) ^ 2
              * (final_exponent_z_signed sample_final_exponentiation_collaborators
                  + ((5 : Nat) : Int))
              * (final_exponent_z_signed sample_final_exponentiation_collaborators ^ 2
                  + (((5 : Nat) : Int)) ^ 2 - 1) + 3) :=
  (final_exponentiation_last_chunk_exponent sample_final_exponentiation_collaborators 5
    (fun _ => rfl) (fun _ => rfl) (fun _ _ => rfl) (fun _ _ => rfl)
    (Multiplicative.ofAdd (1 : Int))).2.2

/-- On two elements over one context with bases in `[0, M)`, `eval_add` is the sum with
one conditional subtraction of the modulus. -/
theorem eval_add_same_context (p : modular_params) (x y : Int) :
    eval_add ⟨x, p⟩ ⟨y, p⟩
      = .ok ⟨if p.m_mod ≤ x + y then x + y - p.m_mod else x + y, p⟩ := by
  unfold eval_add
  simp only [modular_params.get_mod, ne_eq, not_true_eq_false, if_false]
  by_cases h : p.m_mod ≤ x + y
  · have h2 : x + y > p.m_mod ∨ x + y = p.m_mod := by omega
    rw [if_pos h2, if_pos h]
  · have h2 : ¬ (x + y > p.m_mod ∨ x + y = p.m_mod) := by omega
    rw [if_neg h2, if_neg h]

/-- C34 (subtraction is addition of the negation): for `a`, `b` with equal modulus `M` and
bases in `[0, M)`, `eval_subtract a b` and `eval_add a (negate b)` both succeed with the
same base, also when the base of `b` is zero and the base of its negation is `M`. -/
theorem eval_subtract_eq_add_negate (a b : modular_adaptor)
    (hmod : a.m_mod.get_mod = b.m_mod.get_mod)
    (ha : 0 ≤ a.m_base ∧ a.m_base < a.m_mod.get_mod)
    (hb : 0 ≤ b.m_base ∧ b.m_base < b.m_mod.get_mod) :
    ∃ s t, eval_subtract a b = .ok s ∧ eval_add a b.negate = .ok t ∧
      s.m_base = t.m_base ∧ s.m_base = (a.m_base - b.m_base) % a.m_mod.get_mod := by
  obtain ⟨x, ⟨M⟩⟩ := a
  obtain ⟨y, ⟨N⟩⟩ := b
  simp only [modular_params.get_mod] at hmod ha hb
  subst hmod
  simp only [modular_adaptor.negate, modular_params.get_mod]
  rw [eval_add_same_context]
  unfold eval_subtract
  simp only [modular_params.get_mod, ne_eq, not_true_eq_false, if_false]
  by_cases h : x - y < 0
  · rw [if_pos h]
    refine ⟨_, _, rfl, rfl, ?_, ?_⟩
    · have h2 : ¬ (M ≤ x + (-y + M)) := by omega
      simp only [if_neg h2]
      omega
    · show x - y + M = (x - y) % M
      rw [← Int.add_emod_self]
      exact (Int.emod_eq_of_lt (by omega) (by omega)).symm
  · rw [if_neg h]
    refine ⟨_, _, rfl, rfl, ?_, ?_⟩
    · have h2 : M ≤ x + (-y + M) := by omega
      simp only [if_pos h2]
      omega
    · show x - y = (x - y) % M
      exact (Int.emod_eq_of_lt (by omega) (by omega)).symm

/-- Witness of C34: over the modulus `13`, `4 - 0` through both routes. -/
theorem eval_subtract_eq_add_negate_witness :
    ((0 : Int) ≤ 4 ∧ (4 : Int) < 13) ∧ ((0 : Int) ≤ 0 ∧ (0 : Int) < 13) ∧
    ∃ s t, eval_subtract ⟨4, ⟨13⟩⟩ ⟨0, ⟨13⟩⟩ = .ok s ∧
      eval_add ⟨4, ⟨13⟩⟩ (modular_adaptor.negate ⟨0, ⟨13⟩⟩) = .ok t ∧
      s.m_base = t.m_base ∧ s.m_base = (4 - 0) % 13 :=
  ⟨by decide, by decide,
    eval_subtract_eq_add_negate ⟨4, ⟨13⟩⟩ ⟨0, ⟨13⟩⟩ rfl (by decide) (by decide)⟩

/-- C35 (addition is associative and commutative on reduced bases): for `a`, `b`, `c`
with equal modulus `M` and bases in `[0, M)`, every `eval_add` involved succeeds,
`add(add(a, b), c)` and `add(a, add(b, c))` have the same base, and `add(a, b)` and
`add(b, a)` have the same base. -/
theorem eval_add_assoc_comm (a b c : modular_adaptor)
    (hab : a.m_mod.get_mod = b.m_mod.get_mod) (hbc : b.m_mod.get_mod = c.m_mod.get_mod)
    (ha : 0 ≤ a.m_base ∧ a.m_base < a.m_mod.get_mod)
    (hb : 0 ≤ b.m_base ∧ b.m_base < b.m_mod.get_mod)
    (hc : 0 ≤ c.m_base ∧ c.m_base < c.m_mod.get_mod) :
    ∃ ab bc ba l r, eval_add a b = .ok ab ∧ eval_add ab c = .ok l ∧
      eval_add b c = .ok bc ∧ eval_add a bc = .ok r ∧ eval_add b a = .ok ba ∧
      l.m_base = r.m_base ∧ ab.m_base = ba.m_base := by
  obtain ⟨x, ⟨M⟩⟩ := a
  obtain ⟨y, ⟨N⟩⟩ := b
  obtain ⟨z, ⟨K⟩⟩ := c
  simp only [modular_params.get_mod] at hab hbc ha hb hc
  subst hab
  subst hbc
  refine ⟨_, _, _, _, _, eval_add_same_context _ x y, eval_add_same_context _ _ z,
    eval_add_same_context _ y z, eval_add_same_context _ x _, eval_add_same_context _ y x,
    ?_, ?_⟩
  · show (if M ≤ (if M ≤ x + y then x + y - M else x + y) + z
        then (if M ≤ x + y then x + y - M else x + y) + z - M
        else (if M ≤ x + y then x + y - M else x + y) + z)
      = (if M ≤ x + (if M ≤ y + z then y + z - M else y + z)
        then x + (if M ≤ y + z then y + z - M else y + z) - M
        else x + (if M ≤ y + z then y + z - M else y + z))
    split_ifs <;> omega
  · show (if M ≤ x + y then x + y - M else x + y) = (if M ≤ y + x then y + x - M else y + x)
    split_ifs <;> omega

/-- Witness of C35: over the modulus `13`, the bases `7`, `9`, `12`. -/
theorem eval_add_assoc_comm_witness :
    ((0 : Int) ≤ 7 ∧ (7 : Int) < 13) ∧ ((0 : Int) ≤ 9 ∧ (9 : Int) < 13) ∧
    ((0 : Int) ≤ 12 ∧ (12 : Int) < 13) ∧
    ∃ ab bc ba l r, eval_add ⟨7, ⟨13⟩⟩ ⟨9, ⟨13⟩⟩ = .ok ab ∧ eval_add ab ⟨12, ⟨13⟩⟩ = .ok l ∧
      eval_add ⟨9, ⟨13⟩⟩ ⟨12, ⟨13⟩⟩ = .ok bc ∧ eval_add ⟨7, ⟨13⟩⟩ bc = .ok r ∧
      eval_add ⟨9, ⟨13⟩⟩ ⟨7, ⟨13⟩⟩ = .ok ba ∧
      l.m_base = r.m_base ∧ ab.m_base = ba.m_base :=
  ⟨by decide, by decide, by decide,
    eval_add_assoc_comm ⟨7, ⟨13⟩⟩ ⟨9, ⟨13⟩⟩ ⟨12, ⟨13⟩⟩ rfl rfl (by decide) (by decide)
      (by decide)⟩

/-- C36 (equality with a plain value is never true): for an element `a` whose canonical
value is below its modulus and every plain value `v`, `eval_eq a v` fails when the
modulus is not less than `v` and returns `false` when the modulus is less than `v`; it
never returns `true`. -/
theorem eval_eq_never_true (a : modular_adaptor) (v : Int)
    (ha : a.m_mod.adjust_regular a.m_base < a.m_mod.get_mod) :
    (¬ a.m_mod.get_mod < v → eval_eq a v = .error .modulus_too_small) ∧
    (a.m_mod.get_mod < v → eval_eq a v = .ok false) ∧
    eval_eq a v ≠ .ok true := by
  have h1 : ¬ a.m_mod.get_mod < v → eval_eq a v = .error .modulus_too_small := by
    intro h
    unfold eval_eq modular_adaptor.compare_val
    rw [if_pos h]
  have h2 : a.m_mod.get_mod < v → eval_eq a v = .ok false := by
    intro h
    unfold eval_eq modular_adaptor.compare_val
    rw [if_neg (not_not.2 h)]
    have hlt : a.m_mod.adjust_regular a.m_base < v := lt_trans ha h
    simp [backend_compare, hlt]
  refine ⟨h1, h2, ?_⟩
  by_cases h : a.m_mod.get_mod < v
  · rw [h2 h]; intro e; cases e
  · rw [h1 h]; intro e; cases e

/-- Witness of C36: the element with canonical value `4` over `13`, against `4`. -/
theorem eval_eq_never_true_witness :
    ((⟨13⟩ : modular_params).adjust_regular (assign_components 4 13).m_base < 13) ∧
    (¬ (13 : Int) < 4 → eval_eq (assign_components 4 13) 4 = .error .modulus_too_small) ∧
    ((13 : Int) < 4 → eval_eq (assign_components 4 13) 4 = .ok false) ∧
    eval_eq (assign_components 4 13) 4 ≠ .ok true :=
  ⟨by decide, eval_eq_never_true (assign_components 4 13) 4 (by decide)⟩

theorem sample_inversed_spec : ∀ x : ZMod 13, IsUnit x → x * sample_inversed x = 1 := by
  intro x hx
  obtain ⟨u, rfl⟩ := hx
  exact (by decide : ∀ x y : ZMod 13, x * y = 1 → x * sample_inversed x = 1) _ _ u.mul_inv

/-- The twisted Edwards addition law keeps the curve equation: the algebraic core, with
`i1`, `i2` the inverses of the two denominators. -/
theorem twisted_edwards_add_closed {F : Type} [CommRing F] (a d u v s t i1 i2 : F)
    (hP : a * u ^ 2 + v ^ 2 = 1 + d * u ^ 2 * v ^ 2)
    (hQ : a * s ^ 2 + t ^ 2 = 1 + d * s ^ 2 * t ^ 2)
    (k1 : (1 + d * u * s * v * t) * i1 = 1) (k2 : (1 - d * u * s * v * t) * i2 = 1) :
    a * (((u * t + v * s) * i1) * ((u * t + v * s) * i1))
        + ((v * t - a * (u * s)) * i2) * ((v * t - a * (u * s)) * i2)
      = 1 + d * (((u * t + v * s) * i1) * ((u * t + v * s) * i1))
          * (((v * t - a * (u * s)) * i2) * ((v * t - a * (u * s)) * i2)) := by
  have e1 : (1 + d * u * s * v * t) ^ 2 * i1 ^ 2 = 1 := by
    rw [← mul_pow, k1, one_pow]
  have e2 : (1 - d * u * s * v * t) ^ 2 * i2 ^ 2 = 1 := by
    rw [← mul_pow, k2, one_pow]
  linear_combination
    (i1 ^ 2 * i2 ^ 2 * ((1 + (d * u ^ 2 * v ^ 2) * (d * s ^ 2 * t ^ 2)) * (a * s ^ 2 + t ^ 2)
        - (d * s ^ 2 * t ^ 2) * (a * u ^ 2 + v ^ 2 + 1 + d * u ^ 2 * v ^ 2))) * hP
    + (i1 ^ 2 * i2 ^ 2 * ((1 + (d * u ^ 2 * v ^ 2) * (d * s ^ 2 * t ^ 2)) * (1 + d * u ^ 2 * v ^ 2)
        - (d * u ^ 2 * v ^ 2) * (a * s ^ 2 + t ^ 2 + 1 + d * s ^ 2 * t ^ 2))) * hQ
    + (- (v * t - a * (u * s)) ^ 2 * i2 ^ 2 + (1 - d * u * s * v * t) ^ 2 * i2 ^ 2) * e1
    + (- a * (u * t + v * s) ^ 2 * i1 ^ 2 + 1) * e2



/-- C37 (twisted Edwards addition is closed on the curve): for curve constants `a`, `d`
and points `P = (x1, y1)`, `Q = (x2, y2)` that satisfy `a*x^2 + y^2 = 1 + d*x^2*y^2`, if
`1 + d*x1*x2*y1*y2` and `1 - d*x1*x2*y1*y2` are invertible (and `inversed` returns the
inverse of an invertible value) then the point returned by `add` satisfies
`is_well_formed`. -/
theorem add_is_well_formed {F : Type} [CommRing F] [DecidableEq F] (a d : F)
    (inversed : F → F) (P Q : element_g1 F)
    (hinv : ∀ x, IsUnit x → x * inversed x = 1)
    (hP : a * P.X ^ 2 + P.Y ^ 2 = 1 + d * P.X ^ 2 * P.Y ^ 2)
    (hQ : a * Q.X ^ 2 + Q.Y ^ 2 = 1 + d * Q.X ^ 2 * Q.Y ^ 2)
    (h1 : IsUnit (1 + d * P.X * Q.X * P.Y * Q.Y))
    (h2 : IsUnit (1 - d * P.X * Q.X * P.Y * Q.Y)) :
    (P.add a d inversed Q).is_well_formed a d = true := by
  have k1 := hinv _ h1
  have k2 := hinv _ h2
  have l1 : d * (P.X * Q.X) * (P.Y * Q.Y) = d * P.X * Q.X * P.Y * Q.Y := by ring
  have key := twisted_edwards_add_closed a d P.X P.Y Q.X Q.Y _ _ hP hQ k1 k2
  unfold element_g1.is_well_formed
  by_cases hz : (P.add a d inversed Q).is_zero = true
  · rw [if_pos hz]
  · rw [if_neg hz]
    simp only [element_g1.add, element_g1.ctor2, l1, decide_eq_true_eq]
    exact key

/-- Witness of C37: on `5*x^2 + y^2 = 1 + 2*x^2*y^2` over the field with `13`
elements, the points `(1, 2)` and `(12, 2)`. -/
theorem add_is_well_formed_witness :
    ((5 : ZMod 13) * 1 ^ 2 + 2 ^ 2 = 1 + 2 * 1 ^ 2 * 2 ^ 2) ∧
    ((5 : ZMod 13) * 12 ^ 2 + 2 ^ 2 = 1 + 2 * 12 ^ 2 * 2 ^ 2) ∧
    (element_g1.add (5 : ZMod 13) 2 sample_inversed ⟨1, 2, 1⟩ ⟨12, 2, 1⟩).is_well_formed 5 2
      = true :=
  ⟨by decide, by decide,
    add_is_well_formed (5 : ZMod 13) 2 sample_inversed ⟨1, 2, 1⟩ ⟨12, 2, 1⟩
      sample_inversed_spec (by decide) (by decide)
      (isUnit_of_mul_eq_one _ 11 (by decide)) (isUnit_of_mul_eq_one _ 3 (by decide))⟩

/-- C38 (a point minus itself): for a well-formed point `P` with `2*X*Z != 0` and
`1 + d*X^2*Y^2` invertible (`inversed` returning the inverse of an invertible value),
`P - P` is the point with `X = 0`, `Y = 1`, `Z = one`; when `one != zero` that point
does not satisfy `is_zero`. -/
theorem minus_self {F : Type} [CommRing F] [DecidableEq F] (a d : F)
    (inversed : F → F) (P : element_g1 F)
    (hinv : ∀ x, IsUnit x → x * inversed x = 1)
    (hwf : P.is_well_formed a d = true)
    (hXZ : 2 * P.X * P.Z ≠ 0)
    (hunit : IsUnit (1 + d * P.X ^ 2 * P.Y ^ 2)) :
    P.minus a d inversed P = { X := 0, Y := 1, Z := 1 } ∧
    ((1 : F) ≠ 0 → (P.minus a d inversed P).is_zero = false) := by
  have hZ : P.Z ≠ 0 := by
    intro h
    apply hXZ
    rw [h, mul_zero]
  have hPz : P.is_zero = false := by
    simp [element_g1.is_zero, hZ]
  have hNz : P.neg.is_zero = false := by
    simp [element_g1.is_zero, element_g1.neg, hZ]
  have hne : P.X * P.neg.Z ≠ P.neg.X * P.Z := by
    intro h
    apply hXZ
    simp only [element_g1.neg] at h
    linear_combination h
  have heq : P.eq P.neg = false := by
    unfold element_g1.eq
    rw [hPz, hNz]
    simp only [Bool.false_eq_true, if_false]
    rw [if_pos hne]
  have hcurve : a * (P.X * P.X) + P.Y * P.Y = 1 + d * (P.X * P.X) * (P.Y * P.Y) := by
    unfold element_g1.is_well_formed at hwf
    rw [hPz] at hwf
    simpa using hwf
  have l2 : 1 - d * (P.X * -P.X) * (P.Y * P.Y) = 1 + d * P.X ^ 2 * P.Y ^ 2 := by ring
  have k := hinv _ hunit
  have hres : P.minus a d inversed P = { X := 0, Y := 1, Z := 1 } := by
    unfold element_g1.minus element_g1.plus
    rw [hPz, hNz, heq]
    simp only [Bool.false_eq_true, if_false]
    simp only [element_g1.add, element_g1.ctor2, element_g1.neg, l2]
    congr 1
    · have : P.X * P.Y + P.Y * -P.X = 0 := by ring
      rw [this, zero_mul]
    · have hn : P.Y * P.Y - a * (P.X * -P.X) = 1 + d * P.X ^ 2 * P.Y ^ 2 := by
        linear_combination hcurve
      rw [hn]
      exact k
  refine ⟨hres, ?_⟩
  intro h10
  rw [hres]
  simp [element_g1.is_zero, h10]

/-- Witness of C38: on the same curve, the point `(1, 2, 1)` minus itself. -/
theorem minus_self_witness :
    (element_g1.is_well_formed (5 : ZMod 13) 2 ⟨1, 2, 1⟩ = true) ∧
    ((2 : ZMod 13) * 1 * 1 ≠ 0) ∧
    (element_g1.minus (5 : ZMod 13) 2 sample_inversed ⟨1, 2, 1⟩ ⟨1, 2, 1⟩
        = { X := 0, Y := 1, Z := 1 } ∧
      ((1 : ZMod 13) ≠ 0 →
        (element_g1.minus (5 : ZMod 13) 2 sample_inversed ⟨1, 2, 1⟩ ⟨1, 2, 1⟩).is_zero
          = false)) :=
  ⟨by decide, by decide,
    minus_self (5 : ZMod 13) 2 sample_inversed ⟨1, 2, 1⟩ sample_inversed_spec
      (by decide) (by decide) (isUnit_of_mul_eq_one _ 3 (by decide))⟩

theorem prepare_domain_loop_eq {F : Type} (pow : F → Nat → F) (omega : F) :
    ∀ (count power : Nat) (d : List F),
      prepare_domain_loop pow omega count power d
        = d ++ (List.range count).map (fun j => pow omega (power + j)) := by
  intro count
  induction count with
  | zero => intro power d; simp [prepare_domain_loop]
  | succ n ih =>
    intro power d
    unfold prepare_domain_loop
    rw [ih, List.range_succ_eq_map, List.map_cons, List.map_map, List.append_assoc,
      List.singleton_append, Nat.add_zero]
    congr 2
    apply List.map_congr_left
    intro j _
    simp only [Function.comp, Nat.succ_eq_add_one]
    congr 1
    omega

/-- C39 (the evaluation check accepts everything): `verify_eval` returns `true` for every
choice of evaluation points, commitment root, proof and domain, so any two calls return
the same result. -/
theorem verify_eval_always_true {Points Commitment Proof Domain : Type}
    (evaluation_points evaluation_points2 : Points) (root root2 : Commitment)
    (proof proof2 : Proof) (d d2 : Domain) :
    verify_eval evaluation_points root proof d = true ∧
    verify_eval evaluation_points root proof d
      = verify_eval evaluation_points2 root2 proof2 d2 :=
  ⟨rfl, rfl⟩

/-- C40 (the prepared domain has twice the requested size): `prepare_domain n` returns
a vector of length `2 * n` whose first `n` entries are value-initialised field values
and whose entry `n + i - 1`, for `i` in `1..n`, is `omega ^ i`, with
`omega = unity_root (power_of_two n)`. -/
theorem prepare_domain_layout {F : Type} (default : F) (unity_root : Nat → F)
    (power_of_two : Nat → Nat) (pow : F → Nat → F) (n : Nat) :
    (prepare_domain default unity_root power_of_two pow n).length = 2 * n ∧
    (∀ i, i < n → (prepare_domain default unity_root power_of_two pow n).get? i
        = some default) ∧
    (∀ i, 1 ≤ i → i ≤ n →
      (prepare_domain default unity_root power_of_two pow n).get? (n + i - 1)
        = some (pow (unity_root (power_of_two n)) i)) := by
  unfold prepare_domain
  simp only [prepare_domain_loop_eq]
  refine ⟨?_, ?_, ?_⟩
  · simp; omega
  · intro i hi
    rw [List.get?_eq_getElem?, List.getElem?_append_left (by simpa using hi)]
    simp [hi]
  · intro i h1 h2
    rw [List.get?_eq_getElem?, List.getElem?_append_right (by simp; omega)]
    have hidx : n + i - 1 - (List.replicate n default).length = i - 1 := by simp; omega
    rw [hidx]
    have hlt : i - 1 < n := by omega
    simp [hlt]
    congr 1
    omega

/-- Witness of C40: the domain of size `2` over the naturals, with `omega = 3`. -/
theorem prepare_domain_layout_witness :
    (1 ≤ 2 ∧ 2 ≤ 2) ∧
    (prepare_domain (0 : Nat) (fun _ => 3) (fun n => n) (fun x k => x ^ k) 2).get? (2 + 2 - 1)
      = some (3 ^ 2) :=
  ⟨by decide,
    (prepare_domain_layout (0 : Nat) (fun _ => 3) (fun n => n) (fun x k => x ^ k) 2).2.2 2
      (by decide) (by decide)⟩

end Crypto3
